import Mathlib

/-!
# camera_hook: native image processor (`image_processor.cpp`)

A shallow embedding of `calculateCenterCrop` and of the two JNI entry points
`processBitmapToNV21` / `processBitmapToRGBA`.

* C `float` is IEEE-754 binary32 with round-to-nearest, ties-to-even.  A float is
  modelled by sign, integer significand and binary exponent; every operation
  rounds the exact rational result, so the model is bit-exact and evaluates by
  kernel computation on naturals and integers.
* C `int` is a mathematical integer; results of `int` arithmetic are reduced
  into the signed 32-bit range by `wrap32`.
* A float-to-int conversion whose value is not representable (NaN, infinity,
  out of range) has no defined result: `F32.toInt` returns `none`.
* The JNI / NDK / libyuv calls are external.  Their outcomes are read from a
  `Host` record and every call is logged in a trace.
-/

namespace CameraHook

/-! ## binary32 arithmetic -/

/-- A binary32 value: NaN, a signed infinity, or the finite number
`(-1)^neg * m * 2^e` (a finite value with `m = 0` is a signed zero). -/
inductive F32 where
  | nan : F32
  | inf (neg : Bool) : F32
  | fin (neg : Bool) (m : ℕ) (e : ℤ) : F32
  deriving DecidableEq

/-- Nearest integer to `n / d`, ties to the even neighbour. -/
def rne (n d : ℕ) : ℕ :=
  if 2 * (n % d) < d then n / d
  else if d < 2 * (n % d) then n / d + 1
  else if (n / d) % 2 = 0 then n / d else n / d + 1

/-- Binary logarithm by repeated halving; `fuel` bounds the number of halvings. -/
def log2Fuel : ℕ → ℕ → ℕ
  | 0, _ => 0
  | fuel + 1, n => if 2 ≤ n then log2Fuel fuel (n / 2) + 1 else 0

/-- Position of the leading bit of `n`, that is `⌊log₂ n⌋` for `n > 0`. -/
def log2 (n : ℕ) : ℕ := log2Fuel n n

/-- The integer `⌊log₂ (a / b)⌋` for positive `a` and `b`. -/
def ilog2Ratio (a b : ℕ) : ℤ :=
  let k : ℤ := (log2 a : ℤ) - (log2 b : ℤ)
  if b * 2 ^ k.toNat ≤ a * 2 ^ (-k).toNat then k else k - 1

/-- Rounding of the exact magnitude `a / b` to binary32: 24 significant bits,
least exponent `-126` (gradual underflow below it), overflow to infinity at
`2^128`. -/
def roundRatio (neg : Bool) (a b : ℕ) : F32 :=
  if a = 0 then F32.fin neg 0 0
  else
    let x : ℤ := max (ilog2Ratio a b) (-126) - 23
    let m : ℕ := rne (a * 2 ^ (-x).toNat) (b * 2 ^ x.toNat)
    if 0 ≤ x ∧ 2 ^ 128 ≤ m * 2 ^ x.toNat then F32.inf neg else F32.fin neg m x

/-- The conversion `(float) n` of an `int`. -/
def F32.ofInt (n : ℤ) : F32 := roundRatio (decide (n < 0)) n.natAbs 1

/-- Float division `x / y`. -/
def F32.div : F32 → F32 → F32
  | .nan, _ => .nan
  | _, .nan => .nan
  | .inf _, .inf _ => .nan
  | .inf s, .fin t _ _ => .inf (xor s t)
  | .fin s _ _, .inf t => .fin (xor s t) 0 0
  | .fin s m e, .fin t n f =>
    if n = 0 then (if m = 0 then .nan else .inf (xor s t))
    else roundRatio (xor s t) (m * 2 ^ (e - f).toNat) (n * 2 ^ (f - e).toNat)

/-- Float multiplication `x * y`. -/
def F32.mul : F32 → F32 → F32
  | .nan, _ => .nan
  | _, .nan => .nan
  | .inf s, .inf t => .inf (xor s t)
  | .inf s, .fin t n _ => if n = 0 then .nan else .inf (xor s t)
  | .fin s m _, .inf t => if m = 0 then .nan else .inf (xor s t)
  | .fin s m e, .fin t n f =>
    roundRatio (xor s t) (m * n * 2 ^ (e + f).toNat) (2 ^ (-(e + f)).toNat)

/-- Float comparison `x > y` (false as soon as one side is NaN). -/
def F32.gt : F32 → F32 → Bool
  | .nan, _ => false
  | _, .nan => false
  | .inf s, .inf t => !s && t
  | .inf s, .fin _ _ _ => !s
  | .fin _ _ _, .inf t => t
  | .fin s m e, .fin t n f =>
    let vx : ℤ :=
      if s then -((m * 2 ^ (e - min e f).toNat : ℕ) : ℤ) else ((m * 2 ^ (e - min e f).toNat : ℕ) : ℤ)
    let vy : ℤ :=
      if t then -((n * 2 ^ (f - min e f).toNat : ℕ) : ℤ) else ((n * 2 ^ (f - min e f).toNat : ℕ) : ℤ)
    decide (vy < vx)

/-- The conversion `(int) x`: truncation toward zero, undefined (`none`) for NaN,
infinities and values outside the range of a 32-bit `int`. -/
def F32.toInt : F32 → Option ℤ
  | .nan => none
  | .inf _ => none
  | .fin s m e =>
    let k : ℕ := if 0 ≤ e then m * 2 ^ e.toNat else m / 2 ^ (-e).toNat
    let v : ℤ := if s then -(k : ℤ) else (k : ℤ)
    if -2 ^ 31 ≤ v ∧ v ≤ 2 ^ 31 - 1 then some v else none

/-- The rational number denoted by a float (`0` for NaN and infinities). -/
def F32.toRat : F32 → ℚ
  | .nan => 0
  | .inf _ => 0
  | .fin s m e => (if s then -1 else 1) * (m : ℚ) * 2 ^ e

/-- Value-level view of binary32 rounding: the value of the float nearest to the
non-negative rational `q`. -/
def flq (q : ℚ) : ℚ := (roundRatio false q.num.natAbs q.den).toRat

/-- The magnitudes on which no overflow or underflow can occur; every
quantity handled for 32-bit dimensions lies well inside. -/
def InRange (q : ℚ) : Prop := (2 : ℚ) ^ (-100 : ℤ) ≤ q ∧ q ≤ 2 ^ (100 : ℤ)

/-- A finite, strictly positive float whose value is in range. -/
def F32.IsPos (x : F32) : Prop :=
  ∃ (m : ℕ) (e : ℤ), x = F32.fin false m e ∧ 0 < m ∧ InRange ((m : ℚ) * 2 ^ e)

/-! ## 32-bit integers -/

/-- Reduction of an integer into the signed 32-bit range. -/
def wrap32 (z : ℤ) : ℤ := (z + 2 ^ 31) % 2 ^ 32 - 2 ^ 31

/-! ## `calculateCenterCrop` -/

/-- The four output parameters of `calculateCenterCrop`. -/
structure CropRect where
  crop_x : ℤ
  crop_y : ℤ
  crop_w : ℤ
  crop_h : ℤ
  deriving DecidableEq

/-- The function `calculateCenterCrop` (image_processor.cpp, lines 16-34).  The
result is `none` when the float-to-int conversion of the derived dimension is
undefined. -/
def calculateCenterCrop (src_w src_h dst_w dst_h : ℤ) : Option CropRect :=
  let src_aspect := F32.div (F32.ofInt src_w) (F32.ofInt src_h)
  let dst_aspect := F32.div (F32.ofInt dst_w) (F32.ofInt dst_h)
  if F32.gt src_aspect dst_aspect then
    (F32.toInt (F32.mul (F32.ofInt src_h) dst_aspect)).map fun crop_w =>
      { crop_x := Int.tdiv (wrap32 (src_w - crop_w)) 2
        crop_y := 0
        crop_w := crop_w
        crop_h := src_h }
  else
    (F32.toInt (F32.div (F32.ofInt src_w) dst_aspect)).map fun crop_h =>
      { crop_x := 0
        crop_y := Int.tdiv (wrap32 (src_h - crop_h)) 2
        crop_w := src_w
        crop_h := crop_h }

/-- Value of the C expression `(float)w / h` for positive `int` operands. -/
def aspectQ (w h : ℤ) : ℚ := flq (flq w / flq h)

/-- Value of the C expression `src_h * dst_aspect` (the derived crop width before
truncation). -/
def widthQ (src_h dst_w dst_h : ℤ) : ℚ := flq (flq src_h * aspectQ dst_w dst_h)

/-- Value of the C expression `src_w / dst_aspect` (the derived crop height
before truncation). -/
def heightQ (src_w dst_w dst_h : ℤ) : ℚ := flq (flq src_w / aspectQ dst_w dst_h)

/-! ## The JNI entry points -/

/-- The fields of `AndroidBitmapInfo` read by the entry points (all `uint32_t`
in the NDK header, except `format`, an `int32_t`). -/
structure AndroidBitmapInfo where
  width : ℕ
  height : ℕ
  stride : ℕ
  format : ℤ
  deriving DecidableEq

/-- The NDK constant `ANDROID_BITMAP_FORMAT_RGBA_8888`. -/
def ANDROID_BITMAP_FORMAT_RGBA_8888 : ℤ := 1

/-- The NDK constant `ANDROID_BITMAP_FORMAT_RGB_565`. -/
def ANDROID_BITMAP_FORMAT_RGB_565 : ℤ := 4

/-- Outcomes of the external calls made by one invocation of an entry point. -/
structure Host where
  /-- Return code of `AndroidBitmap_getInfo` (negative on failure). -/
  getInfo : ℤ
  /-- Bitmap description written by `AndroidBitmap_getInfo`. -/
  info : AndroidBitmapInfo
  /-- Return code of `AndroidBitmap_lockPixels` (negative on failure). -/
  lockPixels : ℤ
  /-- Whether the `std::vector` allocation of a representable size succeeds. -/
  vectorAlloc : Bool
  /-- Whether `NewByteArray` of a non-negative length returns an array. -/
  newByteArray : Bool
  /-- Whether `GetByteArrayElements` returns a non-null pointer. -/
  getElements : Bool
  deriving DecidableEq

/-- External calls, in the order in which an entry point performs them. -/
inductive Event where
  | getInfo : Event
  | lockPixels : Event
  | unlockPixels : Event
  | vectorAlloc (size : ℤ) : Event
  | newByteArray (size : ℤ) : Event
  | getByteArrayElements : Event
  | releaseByteArrayElements : Event
  | argbScale (crop : Option CropRect) (src_stride dst_stride dst_w dst_h : ℤ) : Event
  | abgrToNV21 (uv_offset width height : ℤ) : Event
  deriving DecidableEq

/-- What an entry point hands back: `nullptr`, a Java byte array of the given
length, or no return at all (a C++ exception left the function). -/
inductive JResult where
  | null : JResult
  | array (length : ℤ) : JResult
  | aborted : JResult
  deriving DecidableEq

/-- One execution of an entry point: the external calls made and the result. -/
structure Run where
  trace : List Event
  result : JResult
  deriving DecidableEq

/-- The entry point `processBitmapToNV21` (image_processor.cpp, lines 38-99). -/
def processBitmapToNV21 (host : Host) (target_width target_height : ℤ) : Run :=
  if host.getInfo < 0 then ⟨[.getInfo], .null⟩
  else if host.info.format ≠ ANDROID_BITMAP_FORMAT_RGBA_8888 then ⟨[.getInfo], .null⟩
  else if host.lockPixels < 0 then ⟨[.getInfo, .lockPixels], .null⟩
  else
    let crop := calculateCenterCrop (wrap32 host.info.width) (wrap32 host.info.height)
      target_width target_height
    let scaled_size := wrap32 (wrap32 (target_width * target_height) * 4)
    if scaled_size < 0 ∨ host.vectorAlloc = false then
      ⟨[.getInfo, .lockPixels, .vectorAlloc scaled_size], .aborted⟩
    else
      let scale := Event.argbScale crop (wrap32 host.info.stride) (wrap32 (target_width * 4))
        target_width target_height
      let nv21_size := Int.tdiv (wrap32 (wrap32 (target_width * target_height) * 3)) 2
      let pre := [.getInfo, .lockPixels, .vectorAlloc scaled_size, scale, .unlockPixels,
        .newByteArray nv21_size]
      if nv21_size < 0 ∨ host.newByteArray = false then ⟨pre, .null⟩
      else if host.getElements then
        ⟨pre ++ [.getByteArrayElements,
          .abgrToNV21 (wrap32 (target_width * target_height)) target_width target_height,
          .releaseByteArrayElements], .array nv21_size⟩
      else ⟨pre ++ [.getByteArrayElements], .array nv21_size⟩

/-- The entry point `processBitmapToRGBA` (image_processor.cpp, lines 103-137). -/
def processBitmapToRGBA (host : Host) (target_width target_height : ℤ) : Run :=
  if host.getInfo < 0 then ⟨[.getInfo], .null⟩
  else if host.lockPixels < 0 then ⟨[.getInfo, .lockPixels], .null⟩
  else
    let crop := calculateCenterCrop (wrap32 host.info.width) (wrap32 host.info.height)
      target_width target_height
    let rgba_size := wrap32 (wrap32 (target_width * target_height) * 4)
    let pre := [.getInfo, .lockPixels, .newByteArray rgba_size]
    if rgba_size < 0 ∨ host.newByteArray = false then ⟨pre ++ [.unlockPixels], .null⟩
    else if host.getElements then
      ⟨pre ++ [.getByteArrayElements,
        .argbScale crop (wrap32 host.info.stride) (wrap32 (target_width * 4)) target_width target_height,
        .releaseByteArrayElements, .unlockPixels], .array rgba_size⟩
    else ⟨pre ++ [.getByteArrayElements, .unlockPixels], .array rgba_size⟩

/-- A host on which every external call succeeds, holding a bitmap of the given
size and pixel format (stride `4 * width`). -/
def okHost (width height : ℕ) (format : ℤ) : Host :=
  { getInfo := 0
    info := { width := width, height := height, stride := 4 * width, format := format }
    lockPixels := 0
    vectorAlloc := true
    newByteArray := true
    getElements := true }

/-- A host on which the bitmap calls succeed but the `std::vector` allocation of
line 63 fails (out of memory). -/
def vectorFailHost (width height : ℕ) : Host :=
  { getInfo := 0
    info := { width := width, height := height, stride := 4 * width,
              format := ANDROID_BITMAP_FORMAT_RGBA_8888 }
    lockPixels := 0
    vectorAlloc := false
    newByteArray := true
    getElements := true }

/-- A host on which the bitmap calls succeed but `NewByteArray` returns null. -/
def arrayFailHost (width height : ℕ) : Host :=
  { getInfo := 0
    info := { width := width, height := height, stride := 4 * width,
              format := ANDROID_BITMAP_FORMAT_RGBA_8888 }
    lockPixels := 0
    vectorAlloc := true
    newByteArray := false
    getElements := true }

/-- Number of `unlockPixels` calls in a trace. -/
def unlockCount (t : List Event) : ℕ := t.countP fun ev => decide (ev = Event.unlockPixels)

/-- Whether a trace allocates an output or intermediate buffer. -/
def allocates (t : List Event) : Bool :=
  t.any fun ev =>
    match ev with
    | .vectorAlloc _ => true
    | .newByteArray _ => true
    | _ => false


/-! ## Leading-bit position -/

theorem log2Fuel_spec (fuel : ℕ) : ∀ n : ℕ, n ≤ fuel → 0 < n →
    2 ^ log2Fuel fuel n ≤ n ∧ n < 2 ^ (log2Fuel fuel n + 1) := by
  induction fuel with
  | zero => intro n h hn; omega
  | succ fuel ih =>
    intro n h hn
    unfold log2Fuel
    split_ifs with h2
    · obtain ⟨h3, h4⟩ := ih (n / 2) (by omega) (by omega)
      have e1 : 2 ^ (log2Fuel fuel (n / 2) + 1) = 2 ^ log2Fuel fuel (n / 2) * 2 := pow_succ _ _
      have e2 : 2 ^ (log2Fuel fuel (n / 2) + 1 + 1) = 2 ^ log2Fuel fuel (n / 2) * 2 * 2 := by
        rw [pow_succ, pow_succ]
      rw [e1] at h4
      rw [e1, e2]
      constructor <;> omega
    · constructor
      · simpa using hn
      · simp; omega

theorem log2_spec (n : ℕ) (hn : 0 < n) : 2 ^ log2 n ≤ n ∧ n < 2 ^ (log2 n + 1) :=
  log2Fuel_spec n n le_rfl hn

/-- Splitting of an integer power of two into a quotient of natural powers. -/
theorem two_zpow_split (z : ℤ) :
    (2 : ℚ) ^ z = ((2 ^ z.toNat : ℕ) : ℚ) / ((2 ^ (-z).toNat : ℕ) : ℚ) := by
  rcases le_total 0 z with h | h
  · obtain ⟨n, rfl⟩ : ∃ n : ℕ, z = n := ⟨z.toNat, by omega⟩
    have h1 : (-(n : ℤ)).toNat = 0 := by omega
    rw [h1, Int.toNat_natCast, zpow_natCast]
    simp
  · obtain ⟨n, rfl⟩ : ∃ n : ℕ, z = -(n : ℤ) := ⟨(-z).toNat, by omega⟩
    have h1 : (-(n : ℤ)).toNat = 0 := by omega
    rw [h1, neg_neg, Int.toNat_natCast, zpow_neg, zpow_natCast]
    simp

theorem ilog2Ratio_spec (a b : ℕ) (ha : 0 < a) (hb : 0 < b) :
    (2 : ℚ) ^ ilog2Ratio a b ≤ (a : ℚ) / b ∧ (a : ℚ) / b < 2 ^ (ilog2Ratio a b + 1) := by
  obtain ⟨ha1, ha2⟩ := log2_spec a ha
  obtain ⟨hb1, hb2⟩ := log2_spec b hb
  have hbq : (0 : ℚ) < b := by exact_mod_cast hb
  have haq : (0 : ℚ) < a := by exact_mod_cast ha
  have ha1q : (2 : ℚ) ^ (log2 a : ℤ) ≤ a := by
    rw [zpow_natCast]; exact_mod_cast ha1
  have ha2q : (a : ℚ) < 2 ^ ((log2 a : ℤ) + 1) := by
    rw [show ((log2 a : ℤ) + 1) = ((log2 a + 1 : ℕ) : ℤ) by push_cast; ring, zpow_natCast]
    exact_mod_cast ha2
  have hb1q : (2 : ℚ) ^ (log2 b : ℤ) ≤ b := by
    rw [zpow_natCast]; exact_mod_cast hb1
  have hb2q : (b : ℚ) < 2 ^ ((log2 b : ℤ) + 1) := by
    rw [show ((log2 b : ℤ) + 1) = ((log2 b + 1 : ℕ) : ℤ) by push_cast; ring, zpow_natCast]
    exact_mod_cast hb2
  have h2pos : ∀ z : ℤ, (0 : ℚ) < 2 ^ z := fun z => zpow_pos (by norm_num) z
  -- the quotient lies strictly between `2^(k-1)` and `2^(k+1)`
  have hup : (a : ℚ) / b < 2 ^ ((log2 a : ℤ) - (log2 b : ℤ) + 1) := by
    rw [div_lt_iff₀ hbq]
    calc (a : ℚ) < 2 ^ ((log2 a : ℤ) + 1) := ha2q
      _ = 2 ^ ((log2 a : ℤ) - (log2 b : ℤ) + 1) * 2 ^ (log2 b : ℤ) := by
          rw [← zpow_add₀ (by norm_num : (2 : ℚ) ≠ 0)]; congr 1; ring
      _ ≤ 2 ^ ((log2 a : ℤ) - (log2 b : ℤ) + 1) * b :=
          mul_le_mul_of_nonneg_left hb1q (le_of_lt (h2pos _))
  have hlo : (2 : ℚ) ^ ((log2 a : ℤ) - (log2 b : ℤ) - 1) ≤ (a : ℚ) / b := by
    rw [le_div_iff₀ hbq]
    calc (2 : ℚ) ^ ((log2 a : ℤ) - (log2 b : ℤ) - 1) * b
        ≤ 2 ^ ((log2 a : ℤ) - (log2 b : ℤ) - 1) * 2 ^ ((log2 b : ℤ) + 1) :=
          mul_le_mul_of_nonneg_left (le_of_lt hb2q) (le_of_lt (h2pos _))
      _ = 2 ^ (log2 a : ℤ) := by
          rw [← zpow_add₀ (by norm_num : (2 : ℚ) ≠ 0)]; congr 1; ring
      _ ≤ a := ha1q
  unfold ilog2Ratio
  simp only
  set k : ℤ := (log2 a : ℤ) - (log2 b : ℤ) with hk
  have hiff : b * 2 ^ k.toNat ≤ a * 2 ^ (-k).toNat ↔ (2 : ℚ) ^ k ≤ (a : ℚ) / b := by
    rw [two_zpow_split k, le_div_iff₀ hbq, div_mul_eq_mul_div,
      div_le_iff₀ (by positivity : (0 : ℚ) < ((2 ^ (-k).toNat : ℕ) : ℚ))]
    rw [mul_comm ((2 ^ k.toNat : ℕ) : ℚ) (b : ℚ)]
    exact_mod_cast Iff.rfl
  split_ifs with hc
  · exact ⟨hiff.mp hc, hup⟩
  · refine ⟨hlo, ?_⟩
    rw [sub_add_cancel]
    exact lt_of_not_le (fun h => hc (hiff.mpr h))

/-! ## Rounding a quotient of naturals to the nearest integer -/

/-- Characterisation of `rne`: `z ≤ rne n d` exactly when `n / d` lies above
`z - 1/2`, or on it with `z` even. -/
theorem rne_ge_iff (n d z : ℕ) (hd : 0 < d) :
    z ≤ rne n d ↔ (2 * (z * d) < 2 * n + d ∨ (2 * (z * d) = 2 * n + d ∧ z % 2 = 0)) := by
  have hn : d * (n / d) + n % d = n := Nat.div_add_mod n d
  have hr : n % d < d := Nat.mod_lt n hd
  have hqd : n / d * d = d * (n / d) := Nat.mul_comm _ _
  unfold rne
  split_ifs with h1 h2 h3
  · constructor
    · intro hz
      have := Nat.mul_le_mul_right d hz
      left; omega
    · intro h
      by_contra hz
      have hz1 : n / d + 1 ≤ z := by omega
      have := Nat.mul_le_mul_right d hz1
      rw [Nat.add_mul] at this
      omega
  · constructor
    · intro hz
      have := Nat.mul_le_mul_right d hz
      rw [Nat.add_mul] at this
      left; omega
    · intro h
      by_contra hz
      have hz1 : n / d + 2 ≤ z := by omega
      have := Nat.mul_le_mul_right d hz1
      rw [Nat.add_mul] at this
      omega
  · constructor
    · intro hz
      have := Nat.mul_le_mul_right d hz
      left; omega
    · intro h
      by_contra hz
      have hz1 : n / d + 1 ≤ z := by omega
      have h4 := Nat.mul_le_mul_right d hz1
      rw [Nat.add_mul] at h4
      rcases h with h | ⟨h, hev⟩
      · omega
      · have hz2 : ¬ (n / d + 2 ≤ z) := by
          intro hz2
          have := Nat.mul_le_mul_right d hz2
          rw [Nat.add_mul] at this
          omega
        omega
  · constructor
    · intro hz
      rcases Nat.lt_or_ge z (n / d + 1) with hlt | hge
      · have hz1 : z ≤ n / d := by omega
        have := Nat.mul_le_mul_right d hz1
        left; omega
      · have hz1 : z = n / d + 1 := by omega
        right
        constructor
        · rw [hz1, Nat.add_mul]; omega
        · omega
    · intro h
      by_contra hz
      have hz1 : n / d + 2 ≤ z := by omega
      have := Nat.mul_le_mul_right d hz1
      rw [Nat.add_mul] at this
      omega

theorem rne_mono (n1 d1 n2 d2 : ℕ) (hd1 : 0 < d1) (hd2 : 0 < d2) (h : n1 * d2 ≤ n2 * d1) :
    rne n1 d1 ≤ rne n2 d2 := by
  rw [rne_ge_iff n2 d2 _ hd2]
  have hc := (rne_ge_iff n1 d1 (rne n1 d1) hd1).mp le_rfl
  set z := rne n1 d1
  -- compare after multiplying through by the other denominator
  have key : 2 * (z * d1) ≤ 2 * n1 + d1 → 2 * (z * d2) ≤ 2 * n2 + d2 := by
    intro hle
    have h1 : (2 * (z * d1)) * d2 ≤ (2 * n1 + d1) * d2 := Nat.mul_le_mul_right d2 hle
    have h2 : (2 * (z * d2)) * d1 ≤ (2 * n2 + d2) * d1 := by
      calc (2 * (z * d2)) * d1 = (2 * (z * d1)) * d2 := by ring
        _ ≤ (2 * n1 + d1) * d2 := h1
        _ = 2 * (n1 * d2) + d1 * d2 := by ring
        _ ≤ 2 * (n2 * d1) + d1 * d2 := by omega
        _ = (2 * n2 + d2) * d1 := by ring
    exact Nat.le_of_mul_le_mul_right h2 hd1
  have keylt : 2 * (z * d1) < 2 * n1 + d1 → 2 * (z * d2) < 2 * n2 + d2 := by
    intro hlt
    have h1 : (2 * (z * d1)) * d2 < (2 * n1 + d1) * d2 := Nat.mul_lt_mul_of_pos_right hlt hd2
    have h2 : (2 * (z * d2)) * d1 < (2 * n2 + d2) * d1 := by
      calc (2 * (z * d2)) * d1 = (2 * (z * d1)) * d2 := by ring
        _ < (2 * n1 + d1) * d2 := h1
        _ = 2 * (n1 * d2) + d1 * d2 := by ring
        _ ≤ 2 * (n2 * d1) + d1 * d2 := by omega
        _ = (2 * n2 + d2) * d1 := by ring
    exact Nat.lt_of_mul_lt_mul_right h2
  rcases hc with hlt | ⟨heq, hev⟩
  · exact Or.inl (keylt hlt)
  · rcases Nat.lt_or_ge (2 * (z * d2)) (2 * n2 + d2) with h3 | h3
    · exact Or.inl h3
    · exact Or.inr ⟨le_antisymm (key (le_of_eq heq)) h3, hev⟩

theorem rne_mul_left (z d : ℕ) (hd : 0 < d) : rne (z * d) d = z := by
  apply le_antisymm
  · by_contra hlt
    have h1 : z + 1 ≤ rne (z * d) d := by omega
    rw [rne_ge_iff _ _ _ hd, Nat.add_mul] at h1
    omega
  · rw [rne_ge_iff _ _ _ hd]
    left; omega

/-- The rounded value is within one half of the exact quotient. -/
theorem rne_error (n d : ℕ) (hd : 0 < d) :
    2 * (rne n d * d) ≤ 2 * n + d ∧ 2 * n ≤ 2 * (rne n d * d) + d := by
  have h1 := (rne_ge_iff n d (rne n d) hd).mp le_rfl
  have h2 : ¬ (rne n d + 1 ≤ rne n d) := by omega
  rw [rne_ge_iff _ _ _ hd, Nat.add_mul] at h2
  constructor <;> omega

/-! ## Rounding to binary32 -/

theorem two_zpow_pos (z : ℤ) : (0 : ℚ) < 2 ^ z := zpow_pos (by norm_num) z

theorem two_zpow_le {y z : ℤ} (h : y ≤ z) : (2 : ℚ) ^ y ≤ 2 ^ z :=
  zpow_le_zpow_right₀ (by norm_num) h

theorem two_zpow_lt_imp {y z : ℤ} (h : (2 : ℚ) ^ y < 2 ^ z) : y < z := by
  by_contra hc
  exact absurd (two_zpow_le (not_lt.mp hc)) (not_le.mpr h)

/-- The scaled numerator and denominator used by `roundRatio` represent
`(a / b) * 2^(-x)`. -/
theorem scaled_ratio (a b : ℕ) (x : ℤ) :
    ((a * 2 ^ (-x).toNat : ℕ) : ℚ) / ((b * 2 ^ x.toNat : ℕ) : ℚ) = (a : ℚ) / b * 2 ^ (-x) := by
  rw [two_zpow_split (-x), neg_neg]
  push_cast
  field_simp

theorem scaled_den_pos (b : ℕ) (x : ℤ) (hb : 0 < b) : 0 < b * 2 ^ x.toNat :=
  Nat.mul_pos hb (pow_pos (by norm_num) _)

/-- In range, the binary exponent of a quotient lies within `[-100, 100]`. -/
theorem ilog2Ratio_range (a b : ℕ) (ha : 0 < a) (hb : 0 < b) (hr : InRange ((a : ℚ) / b)) :
    -100 ≤ ilog2Ratio a b ∧ ilog2Ratio a b ≤ 100 := by
  obtain ⟨h1, h2⟩ := ilog2Ratio_spec a b ha hb
  obtain ⟨r1, r2⟩ := hr
  constructor
  · have := two_zpow_lt_imp (lt_of_le_of_lt r1 h2)
    omega
  · have : ilog2Ratio a b < 100 + 1 := two_zpow_lt_imp (by
      calc (2 : ℚ) ^ ilog2Ratio a b ≤ (a : ℚ) / b := h1
        _ ≤ 2 ^ (100 : ℤ) := r2
        _ < 2 ^ ((100 : ℤ) + 1) := by norm_num)
    omega

/-- The scaled quotient `N / D` lies in `[2^23, 2^24)`. -/
theorem scaled_bounds (a b : ℕ) (ha : 0 < a) (hb : 0 < b) :
    2 ^ 23 * (b * 2 ^ (ilog2Ratio a b - 23).toNat) ≤ a * 2 ^ (-(ilog2Ratio a b - 23)).toNat ∧
    a * 2 ^ (-(ilog2Ratio a b - 23)).toNat < 2 ^ 24 * (b * 2 ^ (ilog2Ratio a b - 23).toNat) := by
  obtain ⟨h1, h2⟩ := ilog2Ratio_spec a b ha hb
  set x : ℤ := ilog2Ratio a b - 23 with hx
  have hD : (0 : ℚ) < ((b * 2 ^ x.toNat : ℕ) : ℚ) := by exact_mod_cast scaled_den_pos b x hb
  have hs := scaled_ratio a b x
  have e1 : (2 : ℚ) ^ ilog2Ratio a b * 2 ^ (-x) = 2 ^ (23 : ℕ) := by
    rw [← zpow_add₀ (by norm_num : (2 : ℚ) ≠ 0), ← zpow_natCast]; congr 1; omega
  have e2 : (2 : ℚ) ^ (ilog2Ratio a b + 1) * 2 ^ (-x) = 2 ^ (24 : ℕ) := by
    rw [← zpow_add₀ (by norm_num : (2 : ℚ) ≠ 0), ← zpow_natCast]; congr 1; omega
  have hp := two_zpow_pos (-x)
  constructor
  · have : (2 : ℚ) ^ (23 : ℕ) ≤ ((a * 2 ^ (-x).toNat : ℕ) : ℚ) / ((b * 2 ^ x.toNat : ℕ) : ℚ) := by
      rw [hs, ← e1]; exact mul_le_mul_of_nonneg_right h1 (le_of_lt hp)
    rw [le_div_iff₀ hD] at this
    exact_mod_cast this
  · have : ((a * 2 ^ (-x).toNat : ℕ) : ℚ) / ((b * 2 ^ x.toNat : ℕ) : ℚ) < (2 : ℚ) ^ (24 : ℕ) := by
      rw [hs, ← e2]; exact mul_lt_mul_of_pos_right h2 hp
    rw [div_lt_iff₀ hD] at this
    exact_mod_cast this

/-- The significand produced by rounding lies in `[2^23, 2^24]`. -/
theorem rne_scaled_bounds (a b : ℕ) (ha : 0 < a) (hb : 0 < b) :
    2 ^ 23 ≤ rne (a * 2 ^ (-(ilog2Ratio a b - 23)).toNat) (b * 2 ^ (ilog2Ratio a b - 23).toNat) ∧
    rne (a * 2 ^ (-(ilog2Ratio a b - 23)).toNat) (b * 2 ^ (ilog2Ratio a b - 23).toNat) ≤ 2 ^ 24 := by
  obtain ⟨h1, h2⟩ := scaled_bounds a b ha hb
  have hD := scaled_den_pos b (ilog2Ratio a b - 23) hb
  set D := b * 2 ^ (ilog2Ratio a b - 23).toNat
  set N := a * 2 ^ (-(ilog2Ratio a b - 23)).toNat
  constructor
  · have := rne_mono (2 ^ 23 * D) D N D hD hD (Nat.mul_le_mul_right D h1)
    rwa [rne_mul_left _ _ hD] at this
  · have := rne_mono N D (2 ^ 24 * D) D hD hD (Nat.mul_le_mul_right D (le_of_lt h2))
    rwa [rne_mul_left _ _ hD] at this

/-- In range, `roundRatio` returns the finite float with exponent
`⌊log₂ (a/b)⌋ - 23` and the rounded scaled quotient as significand. -/
theorem roundRatio_eq (s : Bool) (a b : ℕ) (ha : 0 < a) (hb : 0 < b)
    (hr : InRange ((a : ℚ) / b)) :
    roundRatio s a b = F32.fin s
      (rne (a * 2 ^ (-(ilog2Ratio a b - 23)).toNat) (b * 2 ^ (ilog2Ratio a b - 23).toNat))
      (ilog2Ratio a b - 23) := by
  obtain ⟨r1, r2⟩ := ilog2Ratio_range a b ha hb hr
  obtain ⟨m1, m2⟩ := rne_scaled_bounds a b ha hb
  unfold roundRatio
  have hmax : max (ilog2Ratio a b) (-126) = ilog2Ratio a b := max_eq_left (by omega)
  simp only [hmax]
  rw [if_neg (by omega : ¬ a = 0), if_neg]
  rintro ⟨hx, hov⟩
  have hp : 2 ^ (ilog2Ratio a b - 23).toNat ≤ 2 ^ 77 :=
    Nat.pow_le_pow_right (by norm_num) (by omega)
  have : rne (a * 2 ^ (-(ilog2Ratio a b - 23)).toNat) (b * 2 ^ (ilog2Ratio a b - 23).toNat)
      * 2 ^ (ilog2Ratio a b - 23).toNat ≤ 2 ^ 24 * 2 ^ 77 := Nat.mul_le_mul m2 hp
  have h128 : 2 ^ 24 * 2 ^ 77 < 2 ^ 128 := by norm_num
  omega

theorem roundRatio_toRat (a b : ℕ) (ha : 0 < a) (hb : 0 < b) (hr : InRange ((a : ℚ) / b)) :
    (roundRatio false a b).toRat =
      (rne (a * 2 ^ (-(ilog2Ratio a b - 23)).toNat) (b * 2 ^ (ilog2Ratio a b - 23).toNat) : ℚ)
        * 2 ^ (ilog2Ratio a b - 23) := by
  rw [roundRatio_eq false a b ha hb hr]
  simp [F32.toRat]

/-- The exact quotient, recovered from the scaled one. -/
theorem scaled_ratio_mul (a b : ℕ) (x : ℤ) :
    ((a * 2 ^ (-x).toNat : ℕ) : ℚ) / ((b * 2 ^ x.toNat : ℕ) : ℚ) * 2 ^ x = (a : ℚ) / b := by
  rw [scaled_ratio, mul_assoc, ← zpow_add₀ (by norm_num : (2 : ℚ) ≠ 0)]
  simp

/-- Relative error of one rounding: at most `2^-24`. -/
theorem roundRatio_err (a b : ℕ) (ha : 0 < a) (hb : 0 < b) (hr : InRange ((a : ℚ) / b)) :
    |(roundRatio false a b).toRat - (a : ℚ) / b| ≤ (a : ℚ) / b * 2 ^ (-24 : ℤ) := by
  rw [roundRatio_toRat a b ha hb hr]
  obtain ⟨h1, _⟩ := ilog2Ratio_spec a b ha hb
  set x : ℤ := ilog2Ratio a b - 23 with hx
  have hDn := scaled_den_pos b x hb
  obtain ⟨e1, e2⟩ := rne_error (a * 2 ^ (-x).toNat) (b * 2 ^ x.toNat) hDn
  set D := b * 2 ^ x.toNat
  set N := a * 2 ^ (-x).toNat
  set m := rne N D
  have hD : (0 : ℚ) < (D : ℚ) := by exact_mod_cast hDn
  have hs : (N : ℚ) / D * 2 ^ x = (a : ℚ) / b := scaled_ratio_mul a b x
  have hp := two_zpow_pos x
  have e1q : 2 * ((m : ℚ) * D) ≤ 2 * N + D := by exact_mod_cast e1
  have e2q : 2 * (N : ℚ) ≤ 2 * ((m : ℚ) * D) + D := by exact_mod_cast e2
  have hy : (N : ℚ) / D * D = N := div_mul_cancel₀ _ (ne_of_gt hD)
  have habs : |(m : ℚ) - N / D| ≤ 1 / 2 := by
    rw [abs_le]
    constructor
    · by_contra hneg
      have hpos : 0 < ((N : ℚ) / D - m - 1 / 2) * D := mul_pos (by linarith) hD
      rw [sub_mul, sub_mul, hy] at hpos
      linarith
    · by_contra hneg
      have hpos : 0 < ((m : ℚ) - N / D - 1 / 2) * D := mul_pos (by linarith) hD
      rw [sub_mul, sub_mul, hy] at hpos
      linarith
  have hpow : (2 : ℚ) ^ x * (1 / 2) = 2 ^ ilog2Ratio a b * 2 ^ (-24 : ℤ) := by
    rw [← zpow_add₀ (by norm_num : (2 : ℚ) ≠ 0)]
    rw [show ilog2Ratio a b + -24 = x + -1 by omega, zpow_add₀ (by norm_num : (2 : ℚ) ≠ 0)]
    norm_num
  calc |(m : ℚ) * 2 ^ x - (a : ℚ) / b| = |((m : ℚ) - N / D) * 2 ^ x| := by
        rw [sub_mul, hs]
    _ = |(m : ℚ) - N / D| * 2 ^ x := by rw [abs_mul, abs_of_pos hp]
    _ ≤ 1 / 2 * 2 ^ x := mul_le_mul_of_nonneg_right habs (le_of_lt hp)
    _ = 2 ^ ilog2Ratio a b * 2 ^ (-24 : ℤ) := by rw [mul_comm, hpow]
    _ ≤ (a : ℚ) / b * 2 ^ (-24 : ℤ) :=
        mul_le_mul_of_nonneg_right h1 (le_of_lt (two_zpow_pos _))

/-- Rounding is monotone in the exact quotient. -/
theorem roundRatio_mono (a b c d : ℕ) (ha : 0 < a) (hb : 0 < b) (hc : 0 < c) (hd : 0 < d)
    (hr1 : InRange ((a : ℚ) / b)) (hr2 : InRange ((c : ℚ) / d))
    (h : (a : ℚ) / b ≤ (c : ℚ) / d) :
    (roundRatio false a b).toRat ≤ (roundRatio false c d).toRat := by
  rw [roundRatio_toRat a b ha hb hr1, roundRatio_toRat c d hc hd hr2]
  obtain ⟨p1, p2⟩ := ilog2Ratio_spec a b ha hb
  obtain ⟨q1, q2⟩ := ilog2Ratio_spec c d hc hd
  obtain ⟨m1, m2⟩ := rne_scaled_bounds a b ha hb
  obtain ⟨n1, n2⟩ := rne_scaled_bounds c d hc hd
  have hE : ilog2Ratio a b ≤ ilog2Ratio c d := by
    have := two_zpow_lt_imp (lt_of_le_of_lt (le_trans p1 h) q2)
    omega
  rcases eq_or_lt_of_le hE with heq | hlt
  · -- same binade: compare the significands
    rw [← heq]
    set x : ℤ := ilog2Ratio a b - 23 with hx
    have hD1 := scaled_den_pos b x hb
    have hD2 := scaled_den_pos d x hd
    have hD1q : (0 : ℚ) < ((b * 2 ^ x.toNat : ℕ) : ℚ) := by exact_mod_cast hD1
    have hD2q : (0 : ℚ) < ((d * 2 ^ x.toNat : ℕ) : ℚ) := by exact_mod_cast hD2
    have hq : ((a * 2 ^ (-x).toNat : ℕ) : ℚ) / ((b * 2 ^ x.toNat : ℕ) : ℚ)
        ≤ ((c * 2 ^ (-x).toNat : ℕ) : ℚ) / ((d * 2 ^ x.toNat : ℕ) : ℚ) := by
      rw [scaled_ratio, scaled_ratio]
      exact mul_le_mul_of_nonneg_right h (le_of_lt (two_zpow_pos _))
    rw [div_le_div_iff₀ hD1q hD2q] at hq
    have hnat : (a * 2 ^ (-x).toNat) * (d * 2 ^ x.toNat) ≤ (c * 2 ^ (-x).toNat) * (b * 2 ^ x.toNat) := by
      exact_mod_cast hq
    have := rne_mono _ _ _ _ hD1 hD2 hnat
    exact mul_le_mul_of_nonneg_right (by exact_mod_cast this) (le_of_lt (two_zpow_pos _))
  · -- different binades: a power of two separates the two results
    have e1 : (2 : ℚ) ^ (24 : ℕ) * 2 ^ (ilog2Ratio a b - 23) = 2 ^ (ilog2Ratio a b + 1) := by
      rw [← zpow_natCast, ← zpow_add₀ (by norm_num : (2 : ℚ) ≠ 0)]; congr 1; omega
    have e2 : (2 : ℚ) ^ (23 : ℕ) * 2 ^ (ilog2Ratio c d - 23) = 2 ^ (ilog2Ratio c d) := by
      rw [← zpow_natCast, ← zpow_add₀ (by norm_num : (2 : ℚ) ≠ 0)]; congr 1; omega
    calc (rne (a * 2 ^ (-(ilog2Ratio a b - 23)).toNat) (b * 2 ^ (ilog2Ratio a b - 23).toNat) : ℚ)
          * 2 ^ (ilog2Ratio a b - 23)
        ≤ (2 : ℚ) ^ (24 : ℕ) * 2 ^ (ilog2Ratio a b - 23) :=
          mul_le_mul_of_nonneg_right (by exact_mod_cast m2) (le_of_lt (two_zpow_pos _))
      _ = 2 ^ (ilog2Ratio a b + 1) := e1
      _ ≤ 2 ^ (ilog2Ratio c d) := two_zpow_le (by omega)
      _ = (2 : ℚ) ^ (23 : ℕ) * 2 ^ (ilog2Ratio c d - 23) := e2.symm
      _ ≤ _ := mul_le_mul_of_nonneg_right (by exact_mod_cast n1) (le_of_lt (two_zpow_pos _))

/-- A quotient that is already a binary32 value is returned unchanged. -/
theorem roundRatio_exact (a b : ℕ) (ha : 0 < a) (hb : 0 < b) (hr : InRange ((a : ℚ) / b))
    (M : ℕ) (k : ℤ) (hM : M ≤ 2 ^ 24) (h : (a : ℚ) / b = M * 2 ^ k) :
    (roundRatio false a b).toRat = (a : ℚ) / b := by
  rw [roundRatio_toRat a b ha hb hr]
  obtain ⟨p1, p2⟩ := ilog2Ratio_spec a b ha hb
  set x : ℤ := ilog2Ratio a b - 23 with hx
  have hDn := scaled_den_pos b x hb
  have hD : (0 : ℚ) < ((b * 2 ^ x.toNat : ℕ) : ℚ) := by exact_mod_cast hDn
  have hs := scaled_ratio a b x
  have hsm := scaled_ratio_mul a b x
  -- the scaled quotient is a natural number `Z`
  have hZ : ∃ Z : ℕ, (a : ℚ) / b * 2 ^ (-x) = Z := by
    have hMq : (M : ℚ) ≤ 2 ^ (24 : ℤ) := by
      rw [show (24 : ℤ) = ((24 : ℕ) : ℤ) by norm_num, zpow_natCast]; exact_mod_cast hM
    have hk : x ≤ k + 1 := by
      have h3 : (2 : ℚ) ^ ilog2Ratio a b < 2 ^ (k + 24 + 1) := by
        calc (2 : ℚ) ^ ilog2Ratio a b ≤ (a : ℚ) / b := p1
          _ = M * 2 ^ k := h
          _ ≤ 2 ^ (24 : ℤ) * 2 ^ k := mul_le_mul_of_nonneg_right hMq (le_of_lt (two_zpow_pos _))
          _ = 2 ^ (k + 24) := by
              rw [← zpow_add₀ (by norm_num : (2 : ℚ) ≠ 0)]; congr 1; ring
          _ < 2 ^ (k + 24 + 1) := by
              rw [zpow_add_one₀ (by norm_num : (2 : ℚ) ≠ 0)]
              linarith [two_zpow_pos (k + 24)]
      have := two_zpow_lt_imp h3
      omega
    rcases le_or_lt x k with hxk | hxk
    · refine ⟨M * 2 ^ (k - x).toNat, ?_⟩
      calc (a : ℚ) / b * 2 ^ (-x) = M * (2 ^ k * 2 ^ (-x)) := by rw [h, mul_assoc]
        _ = M * 2 ^ (k - x) := by
            rw [← zpow_add₀ (by norm_num : (2 : ℚ) ≠ 0), sub_eq_add_neg]
        _ = M * 2 ^ (((k - x).toNat : ℕ) : ℤ) := by rw [Int.toNat_of_nonneg (by omega)]
        _ = ((M * 2 ^ (k - x).toNat : ℕ) : ℚ) := by rw [zpow_natCast]; push_cast; rfl
    · have hxe : x = k + 1 := by omega
      have hM24 : (2 : ℚ) ^ (24 : ℤ) ≤ M := by
        have h4 : (2 : ℚ) ^ (24 : ℤ) * 2 ^ k ≤ M * 2 ^ k := by
          calc (2 : ℚ) ^ (24 : ℤ) * 2 ^ k = 2 ^ ilog2Ratio a b := by
                rw [← zpow_add₀ (by norm_num : (2 : ℚ) ≠ 0)]; congr 1; omega
            _ ≤ (a : ℚ) / b := p1
            _ = M * 2 ^ k := h
        exact le_of_mul_le_mul_right h4 (two_zpow_pos k)
      have hMe : (M : ℚ) = 2 ^ (24 : ℤ) := le_antisymm hMq hM24
      refine ⟨2 ^ 23, ?_⟩
      calc (a : ℚ) / b * 2 ^ (-x) = 2 ^ (24 : ℤ) * (2 ^ k * 2 ^ (-x)) := by
            rw [h, hMe, mul_assoc]
        _ = 2 ^ ((23 : ℕ) : ℤ) := by
            rw [← zpow_add₀ (by norm_num : (2 : ℚ) ≠ 0), ← zpow_add₀ (by norm_num : (2 : ℚ) ≠ 0)]
            congr 1; push_cast; omega
        _ = ((2 ^ 23 : ℕ) : ℚ) := by rw [zpow_natCast]; push_cast; rfl
  obtain ⟨Z, hZ⟩ := hZ
  have hN : a * 2 ^ (-x).toNat = Z * (b * 2 ^ x.toNat) := by
    have : ((a * 2 ^ (-x).toNat : ℕ) : ℚ) = Z * ((b * 2 ^ x.toNat : ℕ) : ℚ) := by
      rw [← hZ, ← hs, div_mul_cancel₀ _ (ne_of_gt hD)]
    exact_mod_cast this
  rw [hN, rne_mul_left _ _ hDn, ← hZ, mul_assoc, ← zpow_add₀ (by norm_num : (2 : ℚ) ≠ 0)]
  simp

/-! ## The value-level rounding function `flq` -/

theorem inRange_pos {q : ℚ} (h : InRange q) : 0 < q := lt_of_lt_of_le (two_zpow_pos _) h.1

theorem rat_repr (q : ℚ) (hq : 0 < q) :
    0 < q.num.natAbs ∧ 0 < q.den ∧ ((q.num.natAbs : ℕ) : ℚ) / (q.den : ℚ) = q := by
  have hn : 0 < q.num := Rat.num_pos.mpr hq
  refine ⟨by omega, q.den_pos, ?_⟩
  have h0 : ((q.num.natAbs : ℕ) : ℤ) = q.num := Int.natAbs_of_nonneg (le_of_lt hn)
  have h1 : ((q.num.natAbs : ℕ) : ℚ) = ((q.num : ℤ) : ℚ) := by
    rw [← h0, Int.cast_natCast, h0]
  rw [h1]
  exact Rat.num_div_den q

/-- The value of a rounded quotient depends on the quotient only. -/
theorem roundRatio_eq_flq (a b : ℕ) (ha : 0 < a) (hb : 0 < b) (hr : InRange ((a : ℚ) / b)) :
    (roundRatio false a b).toRat = flq ((a : ℚ) / b) := by
  obtain ⟨h1, h2, h3⟩ := rat_repr ((a : ℚ) / b) (inRange_pos hr)
  have hr2 : InRange (((((a : ℚ) / b).num.natAbs : ℕ) : ℚ) / ((((a : ℚ) / b).den : ℕ) : ℚ)) := by
    rw [h3]; exact hr
  unfold flq
  apply le_antisymm
  · exact roundRatio_mono _ _ _ _ ha hb h1 h2 hr hr2 (by rw [h3])
  · exact roundRatio_mono _ _ _ _ h1 h2 ha hb hr2 hr (by rw [h3])

theorem flq_mono {p q : ℚ} (hp : InRange p) (hq : InRange q) (h : p ≤ q) : flq p ≤ flq q := by
  obtain ⟨a1, a2, a3⟩ := rat_repr p (inRange_pos hp)
  obtain ⟨b1, b2, b3⟩ := rat_repr q (inRange_pos hq)
  unfold flq
  exact roundRatio_mono _ _ _ _ a1 a2 b1 b2 (by rw [a3]; exact hp) (by rw [b3]; exact hq)
    (by rw [a3, b3]; exact h)

theorem flq_exact {q : ℚ} (hq : InRange q) (M : ℕ) (k : ℤ) (hM : M ≤ 2 ^ 24)
    (h : q = M * 2 ^ k) : flq q = q := by
  obtain ⟨a1, a2, a3⟩ := rat_repr q (inRange_pos hq)
  unfold flq
  have := roundRatio_exact _ _ a1 a2 (by rw [a3]; exact hq) M k hM (by rw [a3]; exact h)
  rw [this, a3]

theorem flq_err {q : ℚ} (hq : InRange q) : |flq q - q| ≤ q * 2 ^ (-24 : ℤ) := by
  obtain ⟨a1, a2, a3⟩ := rat_repr q (inRange_pos hq)
  have := roundRatio_err _ _ a1 a2 (by rw [a3]; exact hq)
  rw [a3] at this
  exact this

/-- Every rounded value is a binary32 number. -/
theorem flq_repr {q : ℚ} (hq : InRange q) :
    ∃ (M : ℕ) (k : ℤ), 0 < M ∧ M ≤ 2 ^ 24 ∧ flq q = M * 2 ^ k := by
  obtain ⟨a1, a2, a3⟩ := rat_repr q (inRange_pos hq)
  obtain ⟨m1, m2⟩ := rne_scaled_bounds _ _ a1 a2
  refine ⟨_, _, ?_, m2, roundRatio_toRat _ _ a1 a2 (by rw [a3]; exact hq)⟩
  exact lt_of_lt_of_le (by norm_num) m1

theorem inRange_lo : InRange ((2 : ℚ) ^ (-100 : ℤ)) :=
  ⟨le_rfl, two_zpow_le (by norm_num)⟩

theorem inRange_hi : InRange ((2 : ℚ) ^ (100 : ℤ)) :=
  ⟨two_zpow_le (by norm_num), le_rfl⟩

theorem flq_inRange {q : ℚ} (hq : InRange q) : InRange (flq q) := by
  constructor
  · have h1 : flq ((2 : ℚ) ^ (-100 : ℤ)) = 2 ^ (-100 : ℤ) :=
      flq_exact inRange_lo 1 (-100) (by norm_num) (by simp)
    rw [← h1]
    exact flq_mono inRange_lo hq hq.1
  · have h1 : flq ((2 : ℚ) ^ (100 : ℤ)) = 2 ^ (100 : ℤ) :=
      flq_exact inRange_hi 1 100 (by norm_num) (by simp)
    rw [← h1]
    exact flq_mono hq inRange_hi hq.2

/-- Rounding never crosses a binary32 number from below. -/
theorem flq_le_of_le {q f : ℚ} (hq : InRange q) (hf : InRange f) (M : ℕ) (k : ℤ)
    (hM : M ≤ 2 ^ 24) (hfe : f = M * 2 ^ k) (h : q ≤ f) : flq q ≤ f := by
  rw [← flq_exact hf M k hM hfe]
  exact flq_mono hq hf h

/-- Rounding never crosses a binary32 number from above. -/
theorem le_flq_of_le {q f : ℚ} (hq : InRange q) (hf : InRange f) (M : ℕ) (k : ℤ)
    (hM : M ≤ 2 ^ 24) (hfe : f = M * 2 ^ k) (h : f ≤ q) : f ≤ flq q := by
  rw [← flq_exact hf M k hM hfe]
  exact flq_mono hf hq h

theorem flq_lower {q : ℚ} (hq : InRange q) : q * (1 - 2 ^ (-24 : ℤ)) ≤ flq q := by
  have := (abs_le.mp (flq_err hq)).1
  linarith

theorem flq_upper {q : ℚ} (hq : InRange q) : flq q ≤ q * (1 + 2 ^ (-24 : ℤ)) := by
  have := (abs_le.mp (flq_err hq)).2
  linarith

/-- Integers of at most 24 bits are binary32 numbers. -/
theorem flq_natCast (n : ℕ) (hn : 0 < n) (hle : n ≤ 2 ^ 24) : flq (n : ℚ) = n := by
  have h1 : (1 : ℚ) ≤ n := by exact_mod_cast hn
  have h2 : (n : ℚ) ≤ 2 ^ (24 : ℕ) := by exact_mod_cast hle
  refine flq_exact ⟨?_, ?_⟩ n 0 hle (by simp)
  · exact le_trans (by norm_num) h1
  · exact le_trans h2 (by norm_num)

/-! ## The float operations on positive values -/

theorem F32.IsPos.toRat_inRange {x : F32} (h : x.IsPos) : InRange x.toRat := by
  obtain ⟨m, e, rfl, _, hr⟩ := h
  simpa [F32.toRat] using hr

theorem roundRatio_isPos (a b : ℕ) (ha : 0 < a) (hb : 0 < b) (hr : InRange ((a : ℚ) / b)) :
    (roundRatio false a b).IsPos ∧ (roundRatio false a b).toRat = flq ((a : ℚ) / b) := by
  have hv := roundRatio_eq_flq a b ha hb hr
  refine ⟨?_, hv⟩
  obtain ⟨m1, _⟩ := rne_scaled_bounds a b ha hb
  have hrange := flq_inRange hr
  rw [← hv, roundRatio_toRat a b ha hb hr] at hrange
  exact ⟨_, _, roundRatio_eq false a b ha hb hr, lt_of_lt_of_le (by norm_num) m1, hrange⟩

theorem ofInt_spec (n : ℤ) (h0 : 0 < n) (h1 : n < 2 ^ 31) :
    (F32.ofInt n).IsPos ∧ (F32.ofInt n).toRat = flq (n : ℚ) := by
  have hd : decide (n < 0) = false := by simp; omega
  have hcast : ((n.natAbs : ℕ) : ℚ) = (n : ℚ) := by
    have h2 : ((n.natAbs : ℕ) : ℤ) = n := Int.natAbs_of_nonneg (le_of_lt h0)
    rw [← h2, Int.cast_natCast, h2]
  have hq : ((n.natAbs : ℕ) : ℚ) / ((1 : ℕ) : ℚ) = (n : ℚ) := by rw [hcast]; simp
  have hr : InRange (((n.natAbs : ℕ) : ℚ) / ((1 : ℕ) : ℚ)) := by
    rw [hq]
    have a1 : (1 : ℚ) ≤ (n : ℚ) := by exact_mod_cast h0
    have a2 : (n : ℚ) ≤ 2 ^ (31 : ℕ) := by exact_mod_cast le_of_lt h1
    exact ⟨le_trans (by norm_num) a1, le_trans a2 (by norm_num)⟩
  unfold F32.ofInt
  rw [hd]
  have := roundRatio_isPos n.natAbs 1 (by omega) (by norm_num) hr
  rwa [hq] at this

theorem div_spec (x y : F32) (hx : x.IsPos) (hy : y.IsPos) (hr : InRange (x.toRat / y.toRat)) :
    (F32.div x y).IsPos ∧ (F32.div x y).toRat = flq (x.toRat / y.toRat) := by
  obtain ⟨m, e, rfl, hm, _⟩ := hx
  obtain ⟨n, f, rfl, hn, _⟩ := hy
  have hq : ((m * 2 ^ (e - f).toNat : ℕ) : ℚ) / ((n * 2 ^ (f - e).toNat : ℕ) : ℚ)
      = (F32.fin false m e).toRat / (F32.fin false n f).toRat := by
    have := scaled_ratio m n (f - e)
    rw [neg_sub] at this
    rw [this]
    simp only [F32.toRat, Bool.false_eq_true, if_false, one_mul]
    rw [zpow_sub₀ (by norm_num : (2 : ℚ) ≠ 0)]
    have hnq : (n : ℚ) ≠ 0 := by exact_mod_cast (ne_of_gt hn)
    have hfq : (2 : ℚ) ^ f ≠ 0 := ne_of_gt (two_zpow_pos f)
    field_simp
  have hdiv : F32.div (F32.fin false m e) (F32.fin false n f)
      = roundRatio false (m * 2 ^ (e - f).toNat) (n * 2 ^ (f - e).toNat) := by
    simp [F32.div, ne_of_gt hn]
  rw [hdiv, ← hq]
  rw [← hq] at hr
  exact roundRatio_isPos _ _ (Nat.mul_pos hm (pow_pos (by norm_num) _))
    (Nat.mul_pos hn (pow_pos (by norm_num) _)) hr

theorem mul_spec (x y : F32) (hx : x.IsPos) (hy : y.IsPos) (hr : InRange (x.toRat * y.toRat)) :
    (F32.mul x y).IsPos ∧ (F32.mul x y).toRat = flq (x.toRat * y.toRat) := by
  obtain ⟨m, e, rfl, hm, _⟩ := hx
  obtain ⟨n, f, rfl, hn, _⟩ := hy
  have hq : ((m * n * 2 ^ (e + f).toNat : ℕ) : ℚ) / ((2 ^ (-(e + f)).toNat : ℕ) : ℚ)
      = (F32.fin false m e).toRat * (F32.fin false n f).toRat := by
    simp only [F32.toRat, Bool.false_eq_true, if_false, one_mul]
    have h2 : (2 : ℚ) ^ e * 2 ^ f = 2 ^ (e + f) := (zpow_add₀ (by norm_num) e f).symm
    rw [mul_mul_mul_comm, h2, two_zpow_split (e + f)]
    push_cast
    rw [mul_div_assoc]
  have hmul : F32.mul (F32.fin false m e) (F32.fin false n f)
      = roundRatio false (m * n * 2 ^ (e + f).toNat) (2 ^ (-(e + f)).toNat) := by
    simp [F32.mul]
  rw [hmul, ← hq]
  rw [← hq] at hr
  exact roundRatio_isPos _ _ (Nat.mul_pos (Nat.mul_pos hm hn) (pow_pos (by norm_num) _))
    (pow_pos (by norm_num) _) hr

theorem natCast_mul_two_pow (m : ℕ) (z : ℤ) (hz : 0 ≤ z) :
    ((m * 2 ^ z.toNat : ℕ) : ℚ) = (m : ℚ) * 2 ^ z := by
  push_cast
  rw [← zpow_natCast, Int.toNat_of_nonneg hz]

theorem gt_spec (x y : F32) (hx : x.IsPos) (hy : y.IsPos) :
    F32.gt x y = true ↔ y.toRat < x.toRat := by
  obtain ⟨m, e, rfl, hm, _⟩ := hx
  obtain ⟨n, f, rfl, hn, _⟩ := hy
  simp only [F32.gt, F32.toRat, Bool.false_eq_true, if_false, one_mul, decide_eq_true_eq]
  have hp := two_zpow_pos (min e f)
  have e1 : (m : ℚ) * 2 ^ e = ((m * 2 ^ (e - min e f).toNat : ℕ) : ℚ) * 2 ^ (min e f) := by
    rw [natCast_mul_two_pow m _ (by omega), mul_assoc, ← zpow_add₀ (by norm_num : (2 : ℚ) ≠ 0)]
    congr 2; ring
  have e2 : (n : ℚ) * 2 ^ f = ((n * 2 ^ (f - min e f).toNat : ℕ) : ℚ) * 2 ^ (min e f) := by
    rw [natCast_mul_two_pow n _ (by omega), mul_assoc, ← zpow_add₀ (by norm_num : (2 : ℚ) ≠ 0)]
    congr 2; ring
  rw [e1, e2, mul_lt_mul_right hp]
  constructor
  · intro h; exact_mod_cast h
  · intro h; exact_mod_cast h

theorem toInt_spec (x : F32) (hx : x.IsPos) (hlt : x.toRat < 2 ^ 31) :
    F32.toInt x = some ⌊x.toRat⌋ := by
  obtain ⟨m, e, rfl, hm, _⟩ := hx
  simp only [F32.toRat, Bool.false_eq_true, if_false, one_mul] at hlt ⊢
  have hk : (((if 0 ≤ e then m * 2 ^ e.toNat else m / 2 ^ (-e).toNat : ℕ) : ℕ) : ℤ)
      = ⌊(m : ℚ) * 2 ^ e⌋ := by
    split_ifs with he
    · rw [← natCast_mul_two_pow m e he, Int.floor_natCast]
    · have h2 : (m : ℚ) * 2 ^ e = (m : ℚ) / ((2 ^ (-e).toNat : ℕ) : ℚ) := by
        rw [two_zpow_split e, show e.toNat = 0 by omega]
        simp [div_eq_mul_inv]
      rw [h2, Rat.floor_natCast_div_natCast]
      norm_cast
  have hfl : ⌊(m : ℚ) * 2 ^ e⌋ < 2 ^ 31 := by
    rw [Int.floor_lt]; exact_mod_cast hlt
  have hnn : 0 ≤ ⌊(m : ℚ) * 2 ^ e⌋ := by
    rw [← hk]; exact Int.natCast_nonneg _
  simp only [F32.toInt, Bool.false_eq_true, if_false]
  rw [hk, if_pos ⟨by omega, by omega⟩]

/-! ## `calculateCenterCrop` in terms of rounded rationals -/

theorem inRange_of_bounds {q : ℚ} (h1 : 1 / 2 ^ 62 ≤ q) (h2 : q ≤ 2 ^ 62) : InRange q :=
  ⟨le_trans (by norm_num) h1, le_trans h2 (by norm_num)⟩

theorem flq_int_bounds (n : ℤ) (h0 : 0 < n) (h1 : n < 2 ^ 31) :
    1 ≤ flq (n : ℚ) ∧ flq (n : ℚ) ≤ 2 ^ 31 := by
  have a1 : (1 : ℚ) ≤ (n : ℚ) := by exact_mod_cast h0
  have a2 : (n : ℚ) ≤ 2 ^ 31 := by exact_mod_cast le_of_lt h1
  have hr : InRange (n : ℚ) := inRange_of_bounds (le_trans (by norm_num) a1) (le_trans a2 (by norm_num))
  constructor
  · exact le_flq_of_le hr (inRange_of_bounds (by norm_num) (by norm_num)) 1 0 (by norm_num)
      (by norm_num) a1
  · exact flq_le_of_le hr (inRange_of_bounds (by norm_num) (by norm_num)) 1 31 (by norm_num)
      (by norm_num) a2

theorem ratio_bounds {p q : ℚ} (hp1 : 1 ≤ p) (hp2 : p ≤ 2 ^ 31) (hq1 : 1 ≤ q) (hq2 : q ≤ 2 ^ 31) :
    1 / 2 ^ 31 ≤ p / q ∧ p / q ≤ 2 ^ 31 := by
  have hq : 0 < q := by linarith
  constructor
  · rw [div_le_div_iff₀ (by norm_num) hq]; nlinarith
  · rw [div_le_iff₀ hq]; nlinarith

theorem aspectQ_bounds (w h : ℤ) (w0 : 0 < w) (w1 : w < 2 ^ 31) (h0 : 0 < h) (h1 : h < 2 ^ 31) :
    1 / 2 ^ 31 ≤ aspectQ w h ∧ aspectQ w h ≤ 2 ^ 31 := by
  obtain ⟨a1, a2⟩ := flq_int_bounds w w0 w1
  obtain ⟨b1, b2⟩ := flq_int_bounds h h0 h1
  obtain ⟨r1, r2⟩ := ratio_bounds a1 a2 b1 b2
  have hr : InRange (flq (w : ℚ) / flq (h : ℚ)) :=
    inRange_of_bounds (le_trans (by norm_num) r1) (le_trans r2 (by norm_num))
  unfold aspectQ
  constructor
  · exact le_flq_of_le hr (inRange_of_bounds (by norm_num) (by norm_num)) 1 (-31) (by norm_num)
      (by norm_num) r1
  · exact flq_le_of_le hr (inRange_of_bounds (by norm_num) (by norm_num)) 1 31 (by norm_num)
      (by norm_num) r2

/-- The float `(float)w / h` of the model has the value `aspectQ w h`. -/
theorem aspect_spec (w h : ℤ) (w0 : 0 < w) (w1 : w < 2 ^ 31) (h0 : 0 < h) (h1 : h < 2 ^ 31) :
    (F32.div (F32.ofInt w) (F32.ofInt h)).IsPos ∧
    (F32.div (F32.ofInt w) (F32.ofInt h)).toRat = aspectQ w h := by
  obtain ⟨pw, vw⟩ := ofInt_spec w w0 w1
  obtain ⟨ph, vh⟩ := ofInt_spec h h0 h1
  obtain ⟨a1, a2⟩ := flq_int_bounds w w0 w1
  obtain ⟨b1, b2⟩ := flq_int_bounds h h0 h1
  obtain ⟨r1, r2⟩ := ratio_bounds a1 a2 b1 b2
  have hr : InRange ((F32.ofInt w).toRat / (F32.ofInt h).toRat) := by
    rw [vw, vh]
    exact inRange_of_bounds (le_trans (by norm_num) r1) (le_trans r2 (by norm_num))
  have := div_spec _ _ pw ph hr
  rw [vw, vh] at this
  exact this

theorem widthQ_inRange (src_h dst_w dst_h : ℤ) (s0 : 0 < src_h) (s1 : src_h < 2 ^ 31)
    (w0 : 0 < dst_w) (w1 : dst_w < 2 ^ 31) (h0 : 0 < dst_h) (h1 : dst_h < 2 ^ 31) :
    InRange (flq (src_h : ℚ) * aspectQ dst_w dst_h) := by
  obtain ⟨a1, a2⟩ := flq_int_bounds src_h s0 s1
  obtain ⟨d1, d2⟩ := aspectQ_bounds dst_w dst_h w0 w1 h0 h1
  apply inRange_of_bounds
  · calc (1 : ℚ) / 2 ^ 62 ≤ 1 * (1 / 2 ^ 31) := by norm_num
      _ ≤ flq (src_h : ℚ) * aspectQ dst_w dst_h :=
          mul_le_mul a1 d1 (by norm_num) (by linarith)
  · calc flq (src_h : ℚ) * aspectQ dst_w dst_h ≤ 2 ^ 31 * 2 ^ 31 :=
          mul_le_mul a2 d2 (by linarith) (by norm_num)
      _ ≤ 2 ^ 62 := by norm_num

theorem heightQ_inRange (src_w dst_w dst_h : ℤ) (s0 : 0 < src_w) (s1 : src_w < 2 ^ 31)
    (w0 : 0 < dst_w) (w1 : dst_w < 2 ^ 31) (h0 : 0 < dst_h) (h1 : dst_h < 2 ^ 31) :
    InRange (flq (src_w : ℚ) / aspectQ dst_w dst_h) := by
  obtain ⟨a1, a2⟩ := flq_int_bounds src_w s0 s1
  obtain ⟨d1, d2⟩ := aspectQ_bounds dst_w dst_h w0 w1 h0 h1
  have hd : 0 < aspectQ dst_w dst_h := lt_of_lt_of_le (by norm_num) d1
  apply inRange_of_bounds
  · rw [div_le_div_iff₀ (by norm_num) hd]; nlinarith
  · rw [div_le_iff₀ hd]; nlinarith

/-- The branch test of `calculateCenterCrop`, on values. -/
theorem wider_iff (src_w src_h dst_w dst_h : ℤ)
    (a0 : 0 < src_w) (a1 : src_w < 2 ^ 31) (b0 : 0 < src_h) (b1 : src_h < 2 ^ 31)
    (c0 : 0 < dst_w) (c1 : dst_w < 2 ^ 31) (d0 : 0 < dst_h) (d1 : dst_h < 2 ^ 31) :
    F32.gt (F32.div (F32.ofInt src_w) (F32.ofInt src_h))
      (F32.div (F32.ofInt dst_w) (F32.ofInt dst_h)) = true
    ↔ aspectQ dst_w dst_h < aspectQ src_w src_h := by
  obtain ⟨ps, vs⟩ := aspect_spec src_w src_h a0 a1 b0 b1
  obtain ⟨pd, vd⟩ := aspect_spec dst_w dst_h c0 c1 d0 d1
  rw [gt_spec _ _ ps pd, vs, vd]

/-- The "crop the sides" branch of `calculateCenterCrop`, on values. -/
theorem crop_wide (src_w src_h dst_w dst_h : ℤ)
    (a0 : 0 < src_w) (a1 : src_w < 2 ^ 31) (b0 : 0 < src_h) (b1 : src_h < 2 ^ 31)
    (c0 : 0 < dst_w) (c1 : dst_w < 2 ^ 31) (d0 : 0 < dst_h) (d1 : dst_h < 2 ^ 31)
    (hw : aspectQ dst_w dst_h < aspectQ src_w src_h) (hlt : widthQ src_h dst_w dst_h < 2 ^ 31) :
    calculateCenterCrop src_w src_h dst_w dst_h = some
      { crop_x := Int.tdiv (wrap32 (src_w - ⌊widthQ src_h dst_w dst_h⌋)) 2
        crop_y := 0
        crop_w := ⌊widthQ src_h dst_w dst_h⌋
        crop_h := src_h } := by
  have hg := (wider_iff src_w src_h dst_w dst_h a0 a1 b0 b1 c0 c1 d0 d1).mpr hw
  obtain ⟨pd, vd⟩ := aspect_spec dst_w dst_h c0 c1 d0 d1
  obtain ⟨ph, vh⟩ := ofInt_spec src_h b0 b1
  have hr : InRange ((F32.ofInt src_h).toRat * (F32.div (F32.ofInt dst_w) (F32.ofInt dst_h)).toRat) := by
    rw [vh, vd]; exact widthQ_inRange src_h dst_w dst_h b0 b1 c0 c1 d0 d1
  obtain ⟨pm, vm⟩ := mul_spec _ _ ph pd hr
  rw [vh, vd] at vm
  have hv : (F32.mul (F32.ofInt src_h) (F32.div (F32.ofInt dst_w) (F32.ofInt dst_h))).toRat
      = widthQ src_h dst_w dst_h := vm
  have ht := toInt_spec _ pm (by rw [hv]; exact hlt)
  rw [hv] at ht
  unfold calculateCenterCrop
  simp only [hg, if_true, ht, Option.map_some']

/-- The "crop the top/bottom" branch of `calculateCenterCrop`, on values. -/
theorem crop_tall (src_w src_h dst_w dst_h : ℤ)
    (a0 : 0 < src_w) (a1 : src_w < 2 ^ 31) (b0 : 0 < src_h) (b1 : src_h < 2 ^ 31)
    (c0 : 0 < dst_w) (c1 : dst_w < 2 ^ 31) (d0 : 0 < dst_h) (d1 : dst_h < 2 ^ 31)
    (hw : aspectQ src_w src_h ≤ aspectQ dst_w dst_h) (hlt : heightQ src_w dst_w dst_h < 2 ^ 31) :
    calculateCenterCrop src_w src_h dst_w dst_h = some
      { crop_x := 0
        crop_y := Int.tdiv (wrap32 (src_h - ⌊heightQ src_w dst_w dst_h⌋)) 2
        crop_w := src_w
        crop_h := ⌊heightQ src_w dst_w dst_h⌋ } := by
  have hg : F32.gt (F32.div (F32.ofInt src_w) (F32.ofInt src_h))
      (F32.div (F32.ofInt dst_w) (F32.ofInt dst_h)) = false := by
    rw [← Bool.not_eq_true, wider_iff src_w src_h dst_w dst_h a0 a1 b0 b1 c0 c1 d0 d1]
    exact not_lt.mpr hw
  obtain ⟨pd, vd⟩ := aspect_spec dst_w dst_h c0 c1 d0 d1
  obtain ⟨pw, vw⟩ := ofInt_spec src_w a0 a1
  have hr : InRange ((F32.ofInt src_w).toRat / (F32.div (F32.ofInt dst_w) (F32.ofInt dst_h)).toRat) := by
    rw [vw, vd]; exact heightQ_inRange src_w dst_w dst_h a0 a1 c0 c1 d0 d1
  obtain ⟨pm, vm⟩ := div_spec _ _ pw pd hr
  rw [vw, vd] at vm
  have hv : (F32.div (F32.ofInt src_w) (F32.div (F32.ofInt dst_w) (F32.ofInt dst_h))).toRat
      = heightQ src_w dst_w dst_h := vm
  have ht := toInt_spec _ pm (by rw [hv]; exact hlt)
  rw [hv] at ht
  unfold calculateCenterCrop
  simp only [hg, Bool.false_eq_true, if_false, ht, Option.map_some']

/-! ## Bounds for dimensions below `2^23` -/

theorem flq_lower_num {q : ℚ} (hq : InRange q) : q * (16777215 / 16777216) ≤ flq q := by
  have := flq_lower hq
  norm_num at this
  linarith

theorem flq_upper_num {q : ℚ} (hq : InRange q) : flq q ≤ q * (16777217 / 16777216) := by
  have := flq_upper hq
  norm_num at this
  linarith

theorem intCast_eq_natCast (n : ℤ) (h0 : 0 ≤ n) : (n : ℚ) = ((n.toNat : ℕ) : ℚ) := by
  have h : ((n.toNat : ℕ) : ℤ) = n := Int.toNat_of_nonneg h0
  rw [← h, Int.cast_natCast, h]

theorem flq_intCast (n : ℤ) (h0 : 0 < n) (h1 : n ≤ 2 ^ 24) : flq (n : ℚ) = n := by
  rw [intCast_eq_natCast n (le_of_lt h0)]
  exact flq_natCast n.toNat (by omega) (by omega)

theorem intCast_bounds (n : ℤ) (h0 : 0 < n) (h1 : n < 2 ^ 23) :
    (1 : ℚ) ≤ n ∧ (n : ℚ) ≤ 8388607 := by
  constructor
  · exact_mod_cast h0
  · have : n ≤ 8388607 := by omega
    exact_mod_cast this

theorem exact_ratio_inRange (w h : ℤ) (w0 : 0 < w) (w1 : w < 2 ^ 23) (h0 : 0 < h)
    (h1 : h < 2 ^ 23) : InRange ((w : ℚ) / h) := by
  obtain ⟨a1, a2⟩ := intCast_bounds w w0 w1
  obtain ⟨b1, b2⟩ := intCast_bounds h h0 h1
  obtain ⟨r1, r2⟩ := ratio_bounds a1 (by linarith) b1 (by linarith)
  exact inRange_of_bounds (le_trans (by norm_num) r1) (le_trans r2 (by norm_num))

/-- Below `2^24` the conversions to float are exact, so the aspect ratio is the
exact quotient rounded once. -/
theorem aspectQ_eq (w h : ℤ) (w0 : 0 < w) (w1 : w < 2 ^ 23) (h0 : 0 < h) (h1 : h < 2 ^ 23) :
    aspectQ w h = flq ((w : ℚ) / h) := by
  unfold aspectQ
  rw [flq_intCast w w0 (by omega), flq_intCast h h0 (by omega)]

/-- A source that is exactly no wider than the destination is never seen as
wider by the float test. -/
theorem aspectQ_mono_exact (src_w src_h dst_w dst_h : ℤ)
    (a0 : 0 < src_w) (a1 : src_w < 2 ^ 23) (b0 : 0 < src_h) (b1 : src_h < 2 ^ 23)
    (c0 : 0 < dst_w) (c1 : dst_w < 2 ^ 23) (d0 : 0 < dst_h) (d1 : dst_h < 2 ^ 23)
    (h : src_w * dst_h ≤ src_h * dst_w) :
    aspectQ src_w src_h ≤ aspectQ dst_w dst_h := by
  rw [aspectQ_eq src_w src_h a0 a1 b0 b1, aspectQ_eq dst_w dst_h c0 c1 d0 d1]
  apply flq_mono (exact_ratio_inRange _ _ a0 a1 b0 b1) (exact_ratio_inRange _ _ c0 c1 d0 d1)
  have hb : (0 : ℚ) < src_h := by exact_mod_cast b0
  have hd : (0 : ℚ) < dst_h := by exact_mod_cast d0
  rw [div_le_div_iff₀ hb hd]
  have hq : (src_w : ℚ) * dst_h ≤ src_h * dst_w := by exact_mod_cast h
  linarith

theorem aspectQ_err (w h : ℤ) (w0 : 0 < w) (w1 : w < 2 ^ 23) (h0 : 0 < h) (h1 : h < 2 ^ 23) :
    (w : ℚ) / h * (16777215 / 16777216) ≤ aspectQ w h ∧
    aspectQ w h ≤ (w : ℚ) / h * (16777217 / 16777216) := by
  rw [aspectQ_eq w h w0 w1 h0 h1]
  exact ⟨flq_lower_num (exact_ratio_inRange _ _ w0 w1 h0 h1),
    flq_upper_num (exact_ratio_inRange _ _ w0 w1 h0 h1)⟩

theorem aspectQ_pos (w h : ℤ) (w0 : 0 < w) (w1 : w < 2 ^ 23) (h0 : 0 < h) (h1 : h < 2 ^ 23) :
    0 < aspectQ w h :=
  lt_of_lt_of_le (by norm_num) (aspectQ_bounds w h w0 (by omega) h0 (by omega)).1

/-- In the "crop the sides" branch the derived width fits in the source. -/
theorem widthQ_le (src_w src_h dst_w dst_h : ℤ)
    (a0 : 0 < src_w) (a1 : src_w < 2 ^ 23) (b0 : 0 < src_h) (b1 : src_h < 2 ^ 23)
    (c0 : 0 < dst_w) (c1 : dst_w < 2 ^ 23) (d0 : 0 < dst_h) (d1 : dst_h < 2 ^ 23)
    (hw : aspectQ dst_w dst_h < aspectQ src_w src_h) :
    (src_h : ℚ) * aspectQ dst_w dst_h < src_w ∧ widthQ src_h dst_w dst_h ≤ src_w := by
  have hb : (0 : ℚ) < src_h := by exact_mod_cast b0
  have hrs := exact_ratio_inRange src_w src_h a0 a1 b0 b1
  have hrd := exact_ratio_inRange dst_w dst_h c0 c1 d0 d1
  -- the destination aspect is a float below the exact source aspect
  have hlt : aspectQ dst_w dst_h < (src_w : ℚ) / src_h := by
    by_contra hc
    have hle : (src_w : ℚ) / src_h ≤ aspectQ dst_w dst_h := not_lt.mp hc
    obtain ⟨M, k, _, hM, hrep⟩ := flq_repr hrd
    rw [← aspectQ_eq dst_w dst_h c0 c1 d0 d1] at hrep
    have hin : InRange (aspectQ dst_w dst_h) := by
      rw [aspectQ_eq dst_w dst_h c0 c1 d0 d1]; exact flq_inRange hrd
    have := flq_le_of_le hrs hin M k hM hrep hle
    rw [← aspectQ_eq src_w src_h a0 a1 b0 b1] at this
    exact absurd hw (not_lt.mpr this)
  have hprod : (src_h : ℚ) * aspectQ dst_w dst_h < src_w := by
    rw [lt_div_iff₀ hb] at hlt
    linarith
  refine ⟨hprod, ?_⟩
  unfold widthQ
  rw [flq_intCast src_h b0 (by omega)]
  have hr := widthQ_inRange src_h dst_w dst_h b0 (by omega) c0 (by omega) d0 (by omega)
  rw [flq_intCast src_h b0 (by omega)] at hr
  obtain ⟨s1, s2⟩ := intCast_bounds src_w a0 a1
  have hsr : InRange (src_w : ℚ) :=
    inRange_of_bounds (le_trans (by norm_num) s1) (le_trans s2 (by norm_num))
  exact flq_le_of_le hr hsr src_w.toNat 0 (by omega)
    (by rw [← intCast_eq_natCast _ (le_of_lt a0)]; simp) (le_of_lt hprod)

/-- In the "crop the top/bottom" branch the derived height exceeds the source
height by at most one half, so its truncation fits in the source. -/
theorem heightQ_le (src_w src_h dst_w dst_h : ℤ)
    (a0 : 0 < src_w) (a1 : src_w < 2 ^ 23) (b0 : 0 < src_h) (b1 : src_h < 2 ^ 23)
    (c0 : 0 < dst_w) (c1 : dst_w < 2 ^ 23) (d0 : 0 < dst_h) (d1 : dst_h < 2 ^ 23)
    (hw : aspectQ src_w src_h ≤ aspectQ dst_w dst_h) :
    heightQ src_w dst_w dst_h ≤ (src_h : ℚ) + 1 / 2 := by
  have ha : (0 : ℚ) < src_w := by exact_mod_cast a0
  have hb : (0 : ℚ) < src_h := by exact_mod_cast b0
  obtain ⟨t1, t2⟩ := intCast_bounds src_h b0 b1
  obtain ⟨e1, _⟩ := aspectQ_err src_w src_h a0 a1 b0 b1
  have hsa := aspectQ_pos src_w src_h a0 a1 b0 b1
  have hda := aspectQ_pos dst_w dst_h c0 c1 d0 d1
  -- `src_w / dst_aspect ≤ src_w / src_aspect ≤ src_h / (1 - 2^-24) ≤ src_h + 1/2`
  have h1 : (src_w : ℚ) / aspectQ dst_w dst_h ≤ (src_h : ℚ) + 1 / 2 := by
    rw [div_le_iff₀ hda]
    have h2 : (src_w : ℚ) * (16777215 / 16777216) ≤ aspectQ src_w src_h * src_h := by
      calc (src_w : ℚ) * (16777215 / 16777216)
          = (src_w : ℚ) / src_h * (16777215 / 16777216) * src_h := by field_simp; ring
        _ ≤ aspectQ src_w src_h * src_h := mul_le_mul_of_nonneg_right e1 (le_of_lt hb)
    have h3 : aspectQ src_w src_h * ((src_h : ℚ) + 1 / 2)
        ≤ aspectQ dst_w dst_h * ((src_h : ℚ) + 1 / 2) :=
      mul_le_mul_of_nonneg_right hw (by linarith)
    nlinarith
  unfold heightQ
  rw [flq_intCast src_w a0 (by omega)]
  have hr := heightQ_inRange src_w dst_w dst_h a0 (by omega) c0 (by omega) d0 (by omega)
  rw [flq_intCast src_w a0 (by omega)] at hr
  have hfr : InRange ((src_h : ℚ) + 1 / 2) :=
    inRange_of_bounds (by linarith) (by linarith)
  refine flq_le_of_le hr hfr (2 * src_h + 1).toNat (-1) (by omega) ?_ h1
  rw [← intCast_eq_natCast _ (by omega)]
  push_cast
  rw [zpow_neg_one]
  ring

/-- Two roundings separate the derived width from `src_h * dst_w / dst_h`. -/
theorem widthQ_err (src_h dst_w dst_h : ℤ) (b0 : 0 < src_h) (b1 : src_h < 2 ^ 23)
    (c0 : 0 < dst_w) (c1 : dst_w < 2 ^ 23) (d0 : 0 < dst_h) (d1 : dst_h < 2 ^ 23) :
    (src_h : ℚ) * dst_w / dst_h * (16777215 / 16777216) ≤ (src_h : ℚ) * aspectQ dst_w dst_h ∧
    (src_h : ℚ) * aspectQ dst_w dst_h ≤ (src_h : ℚ) * dst_w / dst_h * (16777217 / 16777216) ∧
    (src_h : ℚ) * aspectQ dst_w dst_h * (16777215 / 16777216) ≤ widthQ src_h dst_w dst_h ∧
    widthQ src_h dst_w dst_h ≤ (src_h : ℚ) * aspectQ dst_w dst_h * (16777217 / 16777216) := by
  have hb : (0 : ℚ) < src_h := by exact_mod_cast b0
  obtain ⟨e1, e2⟩ := aspectQ_err dst_w dst_h c0 c1 d0 d1
  have hr := widthQ_inRange src_h dst_w dst_h b0 (by omega) c0 (by omega) d0 (by omega)
  rw [flq_intCast src_h b0 (by omega)] at hr
  have ht : (src_h : ℚ) * dst_w / dst_h = src_h * ((dst_w : ℚ) / dst_h) := by ring
  refine ⟨?_, ?_, ?_, ?_⟩
  · rw [ht, mul_assoc]; exact mul_le_mul_of_nonneg_left e1 (le_of_lt hb)
  · rw [ht, mul_assoc]; exact mul_le_mul_of_nonneg_left e2 (le_of_lt hb)
  · unfold widthQ; rw [flq_intCast src_h b0 (by omega)]; exact flq_lower_num hr
  · unfold widthQ; rw [flq_intCast src_h b0 (by omega)]; exact flq_upper_num hr

/-- Two roundings separate the derived height from `src_w * dst_h / dst_w`. -/
theorem heightQ_err (src_w dst_w dst_h : ℤ) (a0 : 0 < src_w) (a1 : src_w < 2 ^ 23)
    (c0 : 0 < dst_w) (c1 : dst_w < 2 ^ 23) (d0 : 0 < dst_h) (d1 : dst_h < 2 ^ 23) :
    (src_w : ℚ) * dst_h / dst_w * (16777215 / 16777217) ≤ heightQ src_w dst_w dst_h ∧
    heightQ src_w dst_w dst_h ≤ (src_w : ℚ) * dst_h / dst_w * (16777217 / 16777215) := by
  have ha : (0 : ℚ) < src_w := by exact_mod_cast a0
  have hc : (0 : ℚ) < dst_w := by exact_mod_cast c0
  have hd : (0 : ℚ) < dst_h := by exact_mod_cast d0
  obtain ⟨e1, e2⟩ := aspectQ_err dst_w dst_h c0 c1 d0 d1
  have hda := aspectQ_pos dst_w dst_h c0 c1 d0 d1
  have hr := heightQ_inRange src_w dst_w dst_h a0 (by omega) c0 (by omega) d0 (by omega)
  rw [flq_intCast src_w a0 (by omega)] at hr
  have ht : 0 < (src_w : ℚ) * dst_h / dst_w := by positivity
  -- bounds on the exact quotient `src_w / dst_aspect`
  have p1 : (src_w : ℚ) * dst_h / dst_w * (16777216 / 16777217) ≤ src_w / aspectQ dst_w dst_h := by
    rw [le_div_iff₀ hda]
    calc (src_w : ℚ) * dst_h / dst_w * (16777216 / 16777217) * aspectQ dst_w dst_h
        ≤ (src_w : ℚ) * dst_h / dst_w * (16777216 / 16777217)
            * ((dst_w : ℚ) / dst_h * (16777217 / 16777216)) :=
          mul_le_mul_of_nonneg_left e2 (by positivity)
      _ = src_w := by field_simp; ring
  have p2 : (src_w : ℚ) / aspectQ dst_w dst_h ≤ src_w * dst_h / dst_w * (16777216 / 16777215) := by
    rw [div_le_iff₀ hda]
    calc (src_w : ℚ) = (src_w : ℚ) * dst_h / dst_w * (16777216 / 16777215)
            * ((dst_w : ℚ) / dst_h * (16777215 / 16777216)) := by field_simp; ring
      _ ≤ (src_w : ℚ) * dst_h / dst_w * (16777216 / 16777215) * aspectQ dst_w dst_h :=
          mul_le_mul_of_nonneg_left e1 (by positivity)
  have l := flq_lower_num hr
  have u := flq_upper_num hr
  unfold heightQ
  rw [flq_intCast src_w a0 (by omega)]
  constructor
  · linarith
  · linarith

theorem wrap32_id (z : ℤ) (h0 : -2 ^ 31 ≤ z) (h1 : z < 2 ^ 31) : wrap32 z = z := by
  unfold wrap32
  omega

/-- C division by two of a small non-negative difference. -/
theorem tdiv_wrap (a b : ℤ) (hb : b ≤ a) (h0 : 0 ≤ b) (ha : a < 2 ^ 23) :
    Int.tdiv (wrap32 (a - b)) 2 = (a - b) / 2 := by
  rw [wrap32_id _ (by omega) (by omega), Int.tdiv_eq_ediv (by omega) (by norm_num)]

/-- Integer division, read as a floor of the rational quotient. -/
theorem ediv_bounds (a b : ℤ) (hb : 0 < b) :
    ((a / b : ℤ) : ℚ) ≤ (a : ℚ) / b ∧ (a : ℚ) / b < ((a / b : ℤ) : ℚ) + 1 := by
  have hbq : (0 : ℚ) < b := by exact_mod_cast hb
  have h1 : a / b * b ≤ a := Int.ediv_mul_le a (ne_of_gt hb)
  have h2 : a < (a / b + 1) * b := Int.lt_ediv_add_one_mul_self a hb
  constructor
  · rw [le_div_iff₀ hbq]; exact_mod_cast h1
  · rw [div_lt_iff₀ hbq]; exact_mod_cast h2

/-! ## General results for dimensions below `2^23` -/

theorem widthQ_nonneg (src_h dst_w dst_h : ℤ) (b0 : 0 < src_h) (b1 : src_h < 2 ^ 23)
    (c0 : 0 < dst_w) (c1 : dst_w < 2 ^ 23) (d0 : 0 < dst_h) (d1 : dst_h < 2 ^ 23) :
    0 < widthQ src_h dst_w dst_h :=
  inRange_pos (flq_inRange (widthQ_inRange src_h dst_w dst_h b0 (by omega) c0 (by omega) d0
    (by omega)))

theorem heightQ_nonneg (src_w dst_w dst_h : ℤ) (a0 : 0 < src_w) (a1 : src_w < 2 ^ 23)
    (c0 : 0 < dst_w) (c1 : dst_w < 2 ^ 23) (d0 : 0 < dst_h) (d1 : dst_h < 2 ^ 23) :
    0 < heightQ src_w dst_w dst_h :=
  inRange_pos (flq_inRange (heightQ_inRange src_w dst_w dst_h a0 (by omega) c0 (by omega) d0
    (by omega)))

/-- The shape of the result in the "crop the sides" branch. -/
theorem crop_wide_small (src_w src_h dst_w dst_h : ℤ)
    (a0 : 0 < src_w) (a1 : src_w < 2 ^ 23) (b0 : 0 < src_h) (b1 : src_h < 2 ^ 23)
    (c0 : 0 < dst_w) (c1 : dst_w < 2 ^ 23) (d0 : 0 < dst_h) (d1 : dst_h < 2 ^ 23)
    (hw : aspectQ dst_w dst_h < aspectQ src_w src_h) :
    calculateCenterCrop src_w src_h dst_w dst_h = some
      { crop_x := (src_w - ⌊widthQ src_h dst_w dst_h⌋) / 2
        crop_y := 0
        crop_w := ⌊widthQ src_h dst_w dst_h⌋
        crop_h := src_h } ∧
    0 ≤ ⌊widthQ src_h dst_w dst_h⌋ ∧ ⌊widthQ src_h dst_w dst_h⌋ ≤ src_w := by
  obtain ⟨_, hle⟩ := widthQ_le src_w src_h dst_w dst_h a0 a1 b0 b1 c0 c1 d0 d1 hw
  have hpos := widthQ_nonneg src_h dst_w dst_h b0 b1 c0 c1 d0 d1
  obtain ⟨_, s2⟩ := intCast_bounds src_w a0 a1
  have h0 : 0 ≤ ⌊widthQ src_h dst_w dst_h⌋ := Int.floor_nonneg.mpr (le_of_lt hpos)
  have h1 : ⌊widthQ src_h dst_w dst_h⌋ ≤ src_w := by
    have : ((⌊widthQ src_h dst_w dst_h⌋ : ℤ) : ℚ) ≤ (src_w : ℚ) :=
      le_trans (Int.floor_le _) hle
    exact_mod_cast this
  have hc := crop_wide src_w src_h dst_w dst_h a0 (by omega) b0 (by omega) c0 (by omega) d0
    (by omega) hw (by linarith)
  rw [tdiv_wrap _ _ h1 h0 a1] at hc
  exact ⟨hc, h0, h1⟩

/-- The shape of the result in the "crop the top/bottom" branch. -/
theorem crop_tall_small (src_w src_h dst_w dst_h : ℤ)
    (a0 : 0 < src_w) (a1 : src_w < 2 ^ 23) (b0 : 0 < src_h) (b1 : src_h < 2 ^ 23)
    (c0 : 0 < dst_w) (c1 : dst_w < 2 ^ 23) (d0 : 0 < dst_h) (d1 : dst_h < 2 ^ 23)
    (hw : aspectQ src_w src_h ≤ aspectQ dst_w dst_h) :
    calculateCenterCrop src_w src_h dst_w dst_h = some
      { crop_x := 0
        crop_y := (src_h - ⌊heightQ src_w dst_w dst_h⌋) / 2
        crop_w := src_w
        crop_h := ⌊heightQ src_w dst_w dst_h⌋ } ∧
    0 ≤ ⌊heightQ src_w dst_w dst_h⌋ ∧ ⌊heightQ src_w dst_w dst_h⌋ ≤ src_h := by
  have hle := heightQ_le src_w src_h dst_w dst_h a0 a1 b0 b1 c0 c1 d0 d1 hw
  have hpos := heightQ_nonneg src_w dst_w dst_h a0 a1 c0 c1 d0 d1
  obtain ⟨_, s2⟩ := intCast_bounds src_h b0 b1
  have h0 : 0 ≤ ⌊heightQ src_w dst_w dst_h⌋ := Int.floor_nonneg.mpr (le_of_lt hpos)
  have h1 : ⌊heightQ src_w dst_w dst_h⌋ ≤ src_h := by
    have h2 : ⌊heightQ src_w dst_w dst_h⌋ < src_h + 1 := by
      rw [Int.floor_lt]; push_cast; linarith
    omega
  have hc := crop_tall src_w src_h dst_w dst_h a0 (by omega) b0 (by omega) c0 (by omega) d0
    (by omega) hw (by linarith)
  rw [tdiv_wrap _ _ h1 h0 b1] at hc
  exact ⟨hc, h0, h1⟩

/-- Below `2^23` the crop rectangle lies inside the source. -/
theorem centerCrop_contained_small (src_w src_h dst_w dst_h : ℤ)
    (a0 : 0 < src_w) (a1 : src_w < 2 ^ 23) (b0 : 0 < src_h) (b1 : src_h < 2 ^ 23)
    (c0 : 0 < dst_w) (c1 : dst_w < 2 ^ 23) (d0 : 0 < dst_h) (d1 : dst_h < 2 ^ 23) :
    ∃ r : CropRect, calculateCenterCrop src_w src_h dst_w dst_h = some r ∧
      0 ≤ r.crop_x ∧ 0 ≤ r.crop_y ∧ 0 ≤ r.crop_w ∧ 0 ≤ r.crop_h ∧
      r.crop_x + r.crop_w ≤ src_w ∧ r.crop_y + r.crop_h ≤ src_h := by
  rcases lt_or_le (aspectQ dst_w dst_h) (aspectQ src_w src_h) with hw | hw
  · obtain ⟨hc, h0, h1⟩ := crop_wide_small src_w src_h dst_w dst_h a0 a1 b0 b1 c0 c1 d0 d1 hw
    refine ⟨_, hc, ?_, le_rfl, h0, le_of_lt b0, ?_, ?_⟩ <;> simp only <;> omega
  · obtain ⟨hc, h0, h1⟩ := crop_tall_small src_w src_h dst_w dst_h a0 a1 b0 b1 c0 c1 d0 d1 hw
    refine ⟨_, hc, le_rfl, ?_, le_of_lt a0, h0, ?_, ?_⟩ <;> simp only <;> omega

/-- Below `2^23` the derived dimension is within one pixel of the truncated exact
quotient, whichever branch the float test selects. -/
theorem centerCrop_within_one_small (src_w src_h dst_w dst_h : ℤ)
    (a0 : 0 < src_w) (a1 : src_w < 2 ^ 23) (b0 : 0 < src_h) (b1 : src_h < 2 ^ 23)
    (c0 : 0 < dst_w) (c1 : dst_w < 2 ^ 23) (d0 : 0 < dst_h) (d1 : dst_h < 2 ^ 23) :
    ∃ r : CropRect, calculateCenterCrop src_w src_h dst_w dst_h = some r ∧
      ((src_h * dst_w < src_w * dst_h ∧ r.crop_h = src_h ∧ r.crop_y = 0 ∧
          r.crop_x = (src_w - r.crop_w) / 2 ∧
          src_h * dst_w / dst_h - 1 ≤ r.crop_w ∧ r.crop_w ≤ src_h * dst_w / dst_h + 1) ∨
       (r.crop_w = src_w ∧ r.crop_x = 0 ∧ r.crop_y = (src_h - r.crop_h) / 2 ∧
          src_w * dst_h / dst_w - 1 ≤ r.crop_h ∧ r.crop_h ≤ src_w * dst_h / dst_w + 1)) := by
  rcases lt_or_le (aspectQ dst_w dst_h) (aspectQ src_w src_h) with hw | hw
  · obtain ⟨hc, h0, h1⟩ := crop_wide_small src_w src_h dst_w dst_h a0 a1 b0 b1 c0 c1 d0 d1 hw
    obtain ⟨hp, _⟩ := widthQ_le src_w src_h dst_w dst_h a0 a1 b0 b1 c0 c1 d0 d1 hw
    obtain ⟨e1, e2, e3, e4⟩ := widthQ_err src_h dst_w dst_h b0 b1 c0 c1 d0 d1
    obtain ⟨_, s2⟩ := intCast_bounds src_w a0 a1
    obtain ⟨k1, k2⟩ := ediv_bounds (src_h * dst_w) dst_h d0
    push_cast at k1 k2
    have f1 := Int.floor_le (widthQ src_h dst_w dst_h)
    have f2 := Int.lt_floor_add_one (widthQ src_h dst_w dst_h)
    have hex : src_h * dst_w < src_w * dst_h := by
      by_contra hcon
      have := aspectQ_mono_exact src_w src_h dst_w dst_h a0 a1 b0 b1 c0 c1 d0 d1 (by omega)
      exact absurd hw (not_lt.mpr this)
    refine ⟨_, hc, Or.inl ⟨hex, rfl, rfl, rfl, ?_, ?_⟩⟩
    · have : ((src_h * dst_w / dst_h : ℤ) : ℚ) - 2 < (⌊widthQ src_h dst_w dst_h⌋ : ℚ) := by
        linarith
      have h3 : src_h * dst_w / dst_h - 2 < ⌊widthQ src_h dst_w dst_h⌋ := by exact_mod_cast this
      show src_h * dst_w / dst_h - 1 ≤ ⌊widthQ src_h dst_w dst_h⌋
      omega
    · have : (⌊widthQ src_h dst_w dst_h⌋ : ℚ) < ((src_h * dst_w / dst_h : ℤ) : ℚ) + 2 := by
        linarith
      have h3 : ⌊widthQ src_h dst_w dst_h⌋ < src_h * dst_w / dst_h + 2 := by exact_mod_cast this
      show ⌊widthQ src_h dst_w dst_h⌋ ≤ src_h * dst_w / dst_h + 1
      omega
  · obtain ⟨hc, h0, h1⟩ := crop_tall_small src_w src_h dst_w dst_h a0 a1 b0 b1 c0 c1 d0 d1 hw
    have hle := heightQ_le src_w src_h dst_w dst_h a0 a1 b0 b1 c0 c1 d0 d1 hw
    obtain ⟨e1, e2⟩ := heightQ_err src_w dst_w dst_h a0 a1 c0 c1 d0 d1
    obtain ⟨_, s2⟩ := intCast_bounds src_h b0 b1
    obtain ⟨k1, k2⟩ := ediv_bounds (src_w * dst_h) dst_w c0
    push_cast at k1 k2
    have f1 := Int.floor_le (heightQ src_w dst_w dst_h)
    have f2 := Int.lt_floor_add_one (heightQ src_w dst_w dst_h)
    refine ⟨_, hc, Or.inr ⟨rfl, rfl, rfl, ?_, ?_⟩⟩
    · have : ((src_w * dst_h / dst_w : ℤ) : ℚ) - 2 < (⌊heightQ src_w dst_w dst_h⌋ : ℚ) := by
        linarith
      have h3 : src_w * dst_h / dst_w - 2 < ⌊heightQ src_w dst_w dst_h⌋ := by exact_mod_cast this
      show src_w * dst_h / dst_w - 1 ≤ ⌊heightQ src_w dst_w dst_h⌋
      omega
    · show ⌊heightQ src_w dst_w dst_h⌋ ≤ src_w * dst_h / dst_w + 1
      rcases le_or_lt ((src_w : ℚ) * dst_h / dst_w) (16777215 / 2) with hs | hs
      · have : (⌊heightQ src_w dst_w dst_h⌋ : ℚ) < ((src_w * dst_h / dst_w : ℤ) : ℚ) + 2 := by
          linarith
        have h3 : ⌊heightQ src_w dst_w dst_h⌋ < src_w * dst_h / dst_w + 2 := by
          exact_mod_cast this
        omega
      · have : (8388606 : ℚ) < ((src_w * dst_h / dst_w : ℤ) : ℚ) := by linarith
        have h3 : (8388606 : ℤ) < src_w * dst_h / dst_w := by exact_mod_cast this
        omega

/-- Below `2^23`, a source with exactly the destination aspect ratio keeps its
full width and loses at most one row. -/
theorem centerCrop_equal_aspect_small (src_w src_h dst_w dst_h : ℤ)
    (a0 : 0 < src_w) (a1 : src_w < 2 ^ 23) (b0 : 0 < src_h) (b1 : src_h < 2 ^ 23)
    (c0 : 0 < dst_w) (c1 : dst_w < 2 ^ 23) (d0 : 0 < dst_h) (d1 : dst_h < 2 ^ 23)
    (heq : src_w * dst_h = src_h * dst_w) :
    ∃ crop_h : ℤ, calculateCenterCrop src_w src_h dst_w dst_h = some ⟨0, 0, src_w, crop_h⟩ ∧
      (crop_h = src_h ∨ crop_h = src_h - 1) := by
  have hw := aspectQ_mono_exact src_w src_h dst_w dst_h a0 a1 b0 b1 c0 c1 d0 d1 (le_of_eq heq)
  obtain ⟨hc, h0, h1⟩ := crop_tall_small src_w src_h dst_w dst_h a0 a1 b0 b1 c0 c1 d0 d1 hw
  obtain ⟨e1, _⟩ := heightQ_err src_w dst_w dst_h a0 a1 c0 c1 d0 d1
  obtain ⟨_, s2⟩ := intCast_bounds src_h b0 b1
  have hcq : (0 : ℚ) < dst_w := by exact_mod_cast c0
  have ht : (src_w : ℚ) * dst_h / dst_w = src_h := by
    rw [div_eq_iff (ne_of_gt hcq)]; exact_mod_cast heq
  rw [ht] at e1
  have f2 := Int.lt_floor_add_one (heightQ src_w dst_w dst_h)
  have h2 : src_h - 2 < ⌊heightQ src_w dst_w dst_h⌋ := by
    have : (src_h : ℚ) - 2 < (⌊heightQ src_w dst_w dst_h⌋ : ℚ) := by linarith
    exact_mod_cast this
  have hy : (src_h - ⌊heightQ src_w dst_w dst_h⌋) / 2 = 0 := by omega
  rw [hy] at hc
  exact ⟨_, hc, by omega⟩

/-! ## The entry points -/

theorem nv21_size_eq (n : ℤ) (h0 : 0 ≤ n) (h3 : n * 3 < 2 ^ 31) :
    Int.tdiv (wrap32 (wrap32 n * 3)) 2 = n + n / 2 := by
  rw [wrap32_id n (by omega) (by omega), wrap32_id (n * 3) (by omega) (by omega),
    Int.tdiv_eq_ediv (by omega) (by norm_num)]
  omega

theorem rgba_size_eq (n : ℤ) (h0 : 0 ≤ n) (h4 : n * 4 < 2 ^ 31) :
    wrap32 (wrap32 n * 4) = n * 4 := by
  rw [wrap32_id n (by omega) (by omega), wrap32_id (n * 4) (by omega) (by omega)]

/-- Every array returned by `processBitmapToNV21` has the length computed at
line 79. -/
theorem nv21_result (host : Host) (tw th len : ℤ)
    (h : (processBitmapToNV21 host tw th).result = JResult.array len) :
    len = Int.tdiv (wrap32 (wrap32 (tw * th) * 3)) 2 := by
  unfold processBitmapToNV21 at h
  simp only at h
  split_ifs at h <;> simp_all

/-- Every array returned by `processBitmapToRGBA` has the length computed at
line 115. -/
theorem rgba_result (host : Host) (tw th len : ℤ)
    (h : (processBitmapToRGBA host tw th).result = JResult.array len) :
    len = wrap32 (wrap32 (tw * th) * 4) := by
  unfold processBitmapToRGBA at h
  simp only at h
  split_ifs at h <;> simp_all

/-- On a host where every call succeeds and the sizes are non-negative,
`processBitmapToNV21` returns an array. -/
theorem nv21_returns (host : Host) (tw th : ℤ)
    (h1 : 0 ≤ host.getInfo) (h2 : host.info.format = ANDROID_BITMAP_FORMAT_RGBA_8888)
    (h3 : 0 ≤ host.lockPixels) (h4 : host.vectorAlloc = true) (h5 : host.newByteArray = true)
    (h6 : 0 ≤ wrap32 (wrap32 (tw * th) * 4))
    (h7 : 0 ≤ Int.tdiv (wrap32 (wrap32 (tw * th) * 3)) 2) :
    (processBitmapToNV21 host tw th).result
      = JResult.array (Int.tdiv (wrap32 (wrap32 (tw * th) * 3)) 2) := by
  unfold processBitmapToNV21
  simp only
  rw [if_neg (by omega), if_neg (by simp [h2]), if_neg (by omega),
    if_neg (by simp [h4]; omega), if_neg (by simp [h5]; omega)]
  split_ifs <;> rfl

theorem rgba_returns (host : Host) (tw th : ℤ)
    (h1 : 0 ≤ host.getInfo) (h3 : 0 ≤ host.lockPixels) (h5 : host.newByteArray = true)
    (h6 : 0 ≤ wrap32 (wrap32 (tw * th) * 4)) :
    (processBitmapToRGBA host tw th).result = JResult.array (wrap32 (wrap32 (tw * th) * 4)) := by
  unfold processBitmapToRGBA
  simp only
  rw [if_neg (by omega), if_neg (by omega), if_neg (by simp [h5]; omega)]
  split_ifs <;> rfl

/-- Every `NewByteArray` call of `processBitmapToNV21` asks for the length
computed at line 79. -/
theorem nv21_newByteArray (host : Host) (tw th n : ℤ)
    (h : Event.newByteArray n ∈ (processBitmapToNV21 host tw th).trace) :
    n = Int.tdiv (wrap32 (wrap32 (tw * th) * 3)) 2 := by
  unfold processBitmapToNV21 at h
  simp only at h
  split_ifs at h <;> simp_all

/-- Every `ABGRToNV21` call of `processBitmapToNV21` places the chroma plane at
offset `target_width * target_height` and converts the full target size. -/
theorem nv21_uv_offset (host : Host) (tw th off a b : ℤ)
    (h : Event.abgrToNV21 off a b ∈ (processBitmapToNV21 host tw th).trace) :
    off = wrap32 (tw * th) ∧ a = tw ∧ b = th := by
  unfold processBitmapToNV21 at h
  simp only at h
  split_ifs at h <;> simp_all

/-- Every `NewByteArray` call of `processBitmapToRGBA` asks for the length
computed at line 115. -/
theorem rgba_newByteArray (host : Host) (tw th n : ℤ)
    (h : Event.newByteArray n ∈ (processBitmapToRGBA host tw th).trace) :
    n = wrap32 (wrap32 (tw * th) * 4) := by
  unfold processBitmapToRGBA at h
  simp only at h
  split_ifs at h <;> simp_all

/-! ## Checks of the float model against known binary32 values -/

/-- The model reproduces the binary32 encodings of `0.1f` (0x3DCCCCCD), `1.0f/3`
(0x3EAAAAAB) and `0.01f` (0x3C23D70A), and the ties-to-even conversions of
`2^24 + 1` and `2^24 + 3`. -/
theorem binary32_known_values :
    F32.div (F32.ofInt 1) (F32.ofInt 10) = F32.fin false 13421773 (-27) ∧
    F32.div (F32.ofInt 1) (F32.ofInt 3) = F32.fin false 11184811 (-25) ∧
    F32.div (F32.ofInt 1) (F32.ofInt 100) = F32.fin false 10737418 (-30) ∧
    (F32.ofInt 16777217).toInt = some 16777216 ∧
    (F32.ofInt 16777219).toInt = some 16777220 ∧
    (F32.ofInt (-7)).toInt = some (-7) ∧
    (F32.div (F32.ofInt 7) (F32.ofInt (-2))).toInt = some (-3) ∧
    (F32.div (F32.ofInt 1) (F32.ofInt 0)) = F32.inf false ∧
    (F32.div (F32.ofInt 0) (F32.ofInt 0)) = F32.nan := by
  decide

/-- The two boundary examples of the specification evaluate as stated, and a
source that is wider than the destination by less than float resolution
(4001x4000 against 4002x4001) is not seen as wider by the branch test. -/
theorem boundary_examples :
    calculateCenterCrop 1920 1080 480 480 = some ⟨420, 0, 1080, 1080⟩ ∧
    calculateCenterCrop 1080 1920 480 480 = some ⟨0, 420, 1080, 1080⟩ ∧
    (4000 : ℤ) * 4002 < 4001 * 4001 ∧
    calculateCenterCrop 4001 4000 4002 4001 = some ⟨0, 0, 4001, 4000⟩ := by
  decide

/-! ## The claims -/

/-- On the returning paths of both entry points, whenever the pixel lock was
acquired, `unlockPixels` was called exactly once, after `lockPixels`; and when
`getInfo` or `lockPixels` fails there is no unlock, no buffer is allocated and
the result is `nullptr`. -/
theorem lock_released_on_return (host : Host) (tw th : ℤ) :
    ((Event.lockPixels ∈ (processBitmapToNV21 host tw th).trace → 0 ≤ host.lockPixels →
        (processBitmapToNV21 host tw th).result ≠ JResult.aborted →
        unlockCount (processBitmapToNV21 host tw th).trace = 1 ∧
        (processBitmapToNV21 host tw th).trace.indexOf Event.lockPixels
          < (processBitmapToNV21 host tw th).trace.indexOf Event.unlockPixels) ∧
      (host.getInfo < 0 ∨ host.lockPixels < 0 →
        unlockCount (processBitmapToNV21 host tw th).trace = 0 ∧
        allocates (processBitmapToNV21 host tw th).trace = false ∧
        (processBitmapToNV21 host tw th).result = JResult.null)) ∧
    ((Event.lockPixels ∈ (processBitmapToRGBA host tw th).trace → 0 ≤ host.lockPixels →
        (processBitmapToRGBA host tw th).result ≠ JResult.aborted →
        unlockCount (processBitmapToRGBA host tw th).trace = 1 ∧
        (processBitmapToRGBA host tw th).trace.indexOf Event.lockPixels
          < (processBitmapToRGBA host tw th).trace.indexOf Event.unlockPixels) ∧
      (host.getInfo < 0 ∨ host.lockPixels < 0 →
        unlockCount (processBitmapToRGBA host tw th).trace = 0 ∧
        allocates (processBitmapToRGBA host tw th).trace = false ∧
        (processBitmapToRGBA host tw th).result = JResult.null)) := by
  refine ⟨⟨?_, ?_⟩, ⟨?_, ?_⟩⟩
  · unfold processBitmapToNV21
    simp only
    split_ifs <;> simp [unlockCount, List.indexOf_cons]
    all_goals omega
  · unfold processBitmapToNV21
    simp only
    split_ifs <;> simp [unlockCount, allocates]
    all_goals omega
  · unfold processBitmapToRGBA
    simp only
    split_ifs <;> simp [unlockCount, List.indexOf_cons]
    all_goals omega
  · unfold processBitmapToRGBA
    simp only
    split_ifs <;> simp [unlockCount, allocates]
    all_goals omega

/-- Claim C9 fails on the code: in `processBitmapToNV21` the `std::vector` of
line 63 is constructed after `lockPixels` (line 53) and before the only
`unlockPixels` (line 75).  When that construction throws (out of memory at
target 2x2, or the negative size of target (-1, 1)) the lock has been acquired
and is never released.  The sibling `processBitmapToRGBA` does release the lock
when its allocation fails (lines 117-119). -/
theorem nv21_lock_leaks_on_vector_failure :
    processBitmapToNV21 (vectorFailHost 4 4) 2 2 =
      ⟨[Event.getInfo, Event.lockPixels, Event.vectorAlloc 16], JResult.aborted⟩ ∧
    unlockCount (processBitmapToNV21 (vectorFailHost 4 4) 2 2).trace = 0 ∧
    processBitmapToNV21 (okHost 4 4 ANDROID_BITMAP_FORMAT_RGBA_8888) (-1) 1 =
      ⟨[Event.getInfo, Event.lockPixels, Event.vectorAlloc (-4)], JResult.aborted⟩ ∧
    processBitmapToRGBA (arrayFailHost 4 4) 2 2 =
      ⟨[Event.getInfo, Event.lockPixels, Event.newByteArray 16, Event.unlockPixels],
        JResult.null⟩ := by
  decide

/-- Claim C1 fails on the code: for the positive inputs 1x67108863 -> 1x67108863
the conversion `(float)67108863` rounds up to `2^26 = 67108864`, both aspect
ratios are `2^-26`, and the crop height `(int)(1.0f / 2^-26) = 67108864` exceeds
the source height, so `crop_y + crop_h > src_h`. -/
theorem centerCrop_exceeds_source :
    F32.ofInt 67108863 = F32.fin false 16777216 2 ∧
    calculateCenterCrop 1 67108863 1 67108863 = some ⟨0, 0, 1, 67108864⟩ ∧
    ¬ ((0 : ℤ) + 67108864 ≤ 67108863) := by
  decide

/-- Claim C2 fails on the code: 600x120 -> 500x120 is a wider source and the
claimed crop width is `120*500/120 = 500`.  In the code `dst_aspect` is
`8738133 * 2^-21` (4.16666650...), the product `120 * dst_aspect` rounds to
`16383999 * 2^-15` (499.99996948...), and its truncation is 499. -/
theorem centerCrop_wider_off_by_one :
    (120 : ℤ) * 500 < 600 * 120 ∧ (120 * 500 / 120 : ℤ) = 500 ∧
    F32.div (F32.ofInt 500) (F32.ofInt 120) = F32.fin false 8738133 (-21) ∧
    F32.mul (F32.ofInt 120) (F32.fin false 8738133 (-21)) = F32.fin false 16383999 (-15) ∧
    calculateCenterCrop 600 120 500 120 = some ⟨50, 0, 499, 120⟩ := by
  decide

/-- Claim C3 fails on the code: 100x200 -> 100x180 is a taller source and the
claimed crop height is `100*180/100 = 180`.  In the code `dst_aspect` is
`9320676 * 2^-24` (0.55555558...), the quotient `100 / dst_aspect` rounds to
`11796479 * 2^-16` (179.99998474...), and its truncation is 179. -/
theorem centerCrop_taller_off_by_one :
    (100 : ℤ) * 180 ≤ 200 * 100 ∧ (100 * 180 / 100 : ℤ) = 180 ∧
    F32.div (F32.ofInt 100) (F32.ofInt 180) = F32.fin false 9320676 (-24) ∧
    F32.div (F32.ofInt 100) (F32.fin false 9320676 (-24)) = F32.fin false 11796479 (-16) ∧
    calculateCenterCrop 100 200 100 180 = some ⟨0, 10, 100, 179⟩ := by
  decide

/-- Claim C4 fails on the code: for 120x100 -> 240x200 the height is the derived
dimension and the exact target is `120*200/240 = 100`.  In the code
`dst_aspect` is `10066330 * 2^-23` (1.20000005...), the quotient
`120 / dst_aspect` rounds to `13107199 * 2^-17` (99.99999237...), the crop height
is 99, and the deviation is a full pixel, not strictly less than one. -/
theorem centerCrop_aspect_off_by_full_pixel :
    F32.div (F32.ofInt 240) (F32.ofInt 200) = F32.fin false 10066330 (-23) ∧
    F32.div (F32.ofInt 120) (F32.fin false 10066330 (-23)) = F32.fin false 13107199 (-17) ∧
    calculateCenterCrop 120 100 240 200 = some ⟨0, 0, 120, 99⟩ ∧
    ¬ (|(99 : ℚ) - 120 * 200 / 240| < 1) := by
  refine ⟨by decide, by decide, by decide, ?_⟩
  norm_num

/-- Claim C5 fails on the code: a 120x100 source with a 120x100 destination
(equal dimensions, hence equal aspect ratios) takes the "taller or equal" branch
and is cropped to 120x99, because `120 / (120.0f/100.0f)` rounds to
99.99999237... in single precision. -/
theorem centerCrop_identity_loses_row :
    (120 : ℤ) * 100 = 100 * 120 ∧
    F32.div (F32.ofInt 120) (F32.div (F32.ofInt 120) (F32.ofInt 100))
      = F32.fin false 13107199 (-17) ∧
    calculateCenterCrop 120 100 120 100 = some ⟨0, 0, 120, 99⟩ := by
  decide

/-- Claim C6 as stated fails: the entry points accept every pair of `int`
dimensions, and with `w = h = 65536` or `w = h = -65536` the 32-bit product `w*h`
wraps to 0, so both entry points return an array of length 0 instead of
`w*h + w*h/2` and `w*h*4`. -/
theorem output_length_overflow :
    wrap32 (65536 * 65536) = 0 ∧ wrap32 (-65536 * -65536) = 0 ∧
    (processBitmapToRGBA (okHost 4 4 ANDROID_BITMAP_FORMAT_RGBA_8888) 65536 65536).result
      = JResult.array 0 ∧
    (processBitmapToRGBA (okHost 4 4 ANDROID_BITMAP_FORMAT_RGBA_8888) (-65536) (-65536)).result
      = JResult.array 0 ∧
    (0 : ℤ) ≠ 65536 * 65536 * 4 ∧
    (processBitmapToNV21 (okHost 4 4 ANDROID_BITMAP_FORMAT_RGBA_8888) (-65536) (-65536)).result
      = JResult.array 0 ∧
    (0 : ℤ) ≠ -65536 * -65536 + -65536 * -65536 / 2 := by
  decide

/-- Claim C6, amended: when `w*h` is non-negative and the largest size computed by
the entry points fits a signed 32-bit integer (`w*h*4 < 2^31`), then for every
host: each array returned by `processBitmapToNV21` and each `NewByteArray` call
it makes has length `w*h + w*h/2`, its `ABGRToNV21` call places the chroma plane
at offset `w*h`, and it returns such an array whenever `getInfo`, the format
check, `lockPixels` and the two allocations succeed; each array returned by
`processBitmapToRGBA` and each `NewByteArray` call it makes has length `w*h*4`,
and it returns such an array whenever `getInfo`, `lockPixels` and `NewByteArray`
succeed. -/
theorem output_length_no_overflow (host : Host) (w h : ℤ)
    (h0 : 0 ≤ w * h) (h4 : w * h * 4 < 2 ^ 31) :
    ((∀ len, (processBitmapToNV21 host w h).result = JResult.array len →
        len = w * h + w * h / 2) ∧
      (∀ n, Event.newByteArray n ∈ (processBitmapToNV21 host w h).trace →
        n = w * h + w * h / 2) ∧
      (∀ off a b, Event.abgrToNV21 off a b ∈ (processBitmapToNV21 host w h).trace →
        off = w * h ∧ a = w ∧ b = h) ∧
      (0 ≤ host.getInfo → host.info.format = ANDROID_BITMAP_FORMAT_RGBA_8888 →
        0 ≤ host.lockPixels → host.vectorAlloc = true → host.newByteArray = true →
        (processBitmapToNV21 host w h).result = JResult.array (w * h + w * h / 2))) ∧
    ((∀ len, (processBitmapToRGBA host w h).result = JResult.array len → len = w * h * 4) ∧
      (∀ n, Event.newByteArray n ∈ (processBitmapToRGBA host w h).trace → n = w * h * 4) ∧
      (0 ≤ host.getInfo → 0 ≤ host.lockPixels → host.newByteArray = true →
        (processBitmapToRGBA host w h).result = JResult.array (w * h * 4))) := by
  have h3 : w * h * 3 < 2 ^ 31 := by omega
  have e3 := nv21_size_eq (w * h) h0 h3
  have e4 := rgba_size_eq (w * h) h0 h4
  have ew : wrap32 (w * h) = w * h := wrap32_id _ (by omega) (by omega)
  refine ⟨⟨?_, ?_, ?_, ?_⟩, ⟨?_, ?_, ?_⟩⟩
  · intro len hres
    rw [nv21_result host w h len hres, e3]
  · intro n hn
    rw [nv21_newByteArray host w h n hn, e3]
  · intro off a b hev
    have := nv21_uv_offset host w h off a b hev
    rw [ew] at this
    exact this
  · intro g f l v nb
    rw [← e3]
    exact nv21_returns host w h g f l v nb (by rw [e4]; omega) (by rw [e3]; omega)
  · intro len hres
    rw [rgba_result host w h len hres, e4]
  · intro n hn
    rw [rgba_newByteArray host w h n hn, e4]
  · intro g l nb
    rw [← e4]
    exact rgba_returns host w h g l nb (by rw [e4]; omega)

/-- Witness of the amended C6 at a 640x480 target: both entry points return
arrays of the stated lengths, and the NV21 trace holds the `ABGRToNV21` call with
chroma offset `640*480`. -/
theorem output_length_no_overflow_witness :
    (processBitmapToNV21 (okHost 4 4 ANDROID_BITMAP_FORMAT_RGBA_8888) 640 480).result
      = JResult.array (640 * 480 + 640 * 480 / 2) ∧
    (processBitmapToRGBA (okHost 4 4 ANDROID_BITMAP_FORMAT_RGBA_8888) 640 480).result
      = JResult.array (640 * 480 * 4) ∧
    Event.abgrToNV21 (640 * 480) 640 480
      ∈ (processBitmapToNV21 (okHost 4 4 ANDROID_BITMAP_FORMAT_RGBA_8888) 640 480).trace :=
  ⟨(output_length_no_overflow (okHost 4 4 ANDROID_BITMAP_FORMAT_RGBA_8888) 640 480
      (by decide) (by decide)).1.2.2.2 (by decide) rfl (by decide) rfl rfl,
   (output_length_no_overflow (okHost 4 4 ANDROID_BITMAP_FORMAT_RGBA_8888) 640 480
      (by decide) (by decide)).2.2.2 (by decide) (by decide) rfl,
   by decide⟩

/-- Claim C7 as stated fails: with the odd target 3x3 and all host calls
succeeding, `processBitmapToNV21` returns an array of `3*3*3/2 = 13` bytes
instead of failing. -/
theorem nv21_odd_not_rejected :
    (processBitmapToNV21 (okHost 4 4 ANDROID_BITMAP_FORMAT_RGBA_8888) 3 3).result
      = JResult.array 13 := by
  decide

/-- Claim C7, amended: `processBitmapToNV21` never inspects the parity of the
target dimensions.  For all positive target dimensions, odd ones included (sizes
not overflowing), whenever `getInfo`, the format check, `lockPixels` and the two
allocations succeed, it returns an array of `w*h*3/2` bytes; when both
dimensions are odd this is the exact size `w*h*3/2` rounded down by one half. -/
theorem nv21_parity_not_checked (host : Host) (w h : ℤ)
    (hw : 0 < w) (hh : 0 < h) (h4 : w * h * 4 < 2 ^ 31)
    (h1 : 0 ≤ host.getInfo) (h2 : host.info.format = ANDROID_BITMAP_FORMAT_RGBA_8888)
    (h3 : 0 ≤ host.lockPixels) (h5 : host.vectorAlloc = true) (h6 : host.newByteArray = true) :
    (processBitmapToNV21 host w h).result = JResult.array (w * h * 3 / 2) ∧
    (w % 2 = 1 → h % 2 = 1 → 2 * (w * h * 3 / 2) + 1 = w * h * 3) := by
  have h0 : 0 ≤ w * h := le_of_lt (mul_pos hw hh)
  have e1 := nv21_size_eq (w * h) h0 (by omega)
  have e2 := rgba_size_eq (w * h) h0 h4
  have e3 : w * h * 3 / 2 = w * h + w * h / 2 := by omega
  constructor
  · rw [e3, ← e1]
    exact nv21_returns host w h h1 h2 h3 h5 h6 (by rw [e2]; omega) (by rw [e1]; omega)
  · intro ow oh
    have hodd : w * h % 2 = 1 := by rw [Int.mul_emod, ow, oh]; rfl
    omega

/-- Witness of the amended C7 at the odd target 3x3. -/
theorem nv21_parity_not_checked_witness :
    (processBitmapToNV21 (okHost 4 4 ANDROID_BITMAP_FORMAT_RGBA_8888) 3 3).result
      = JResult.array (3 * 3 * 3 / 2) :=
  (nv21_parity_not_checked (okHost 4 4 ANDROID_BITMAP_FORMAT_RGBA_8888) 3 3
    (by decide) (by decide) (by decide) (by decide) rfl (by decide) rfl rfl).1

/-- Claim C8 fails on the code: given an RGB_565 bitmap, `processBitmapToRGBA`
locks the pixels, computes the crop, scales and returns a 16-byte array, while
`processBitmapToNV21` rejects the same bitmap right after `getInfo`. -/
theorem rgba_accepts_rgb565 :
    processBitmapToRGBA (okHost 4 4 ANDROID_BITMAP_FORMAT_RGB_565) 2 2 =
      ⟨[Event.getInfo, Event.lockPixels, Event.newByteArray 16, Event.getByteArrayElements,
        Event.argbScale (some ⟨0, 0, 4, 4⟩) 16 8 2 2, Event.releaseByteArrayElements,
        Event.unlockPixels], JResult.array 16⟩ ∧
    processBitmapToNV21 (okHost 4 4 ANDROID_BITMAP_FORMAT_RGB_565) 2 2 =
      ⟨[Event.getInfo], JResult.null⟩ := by
  decide

/-- Claim C10: strictly positive inputs can produce an empty crop rectangle; for
100x1 -> 1x100 the code returns `crop_x = 50, crop_y = 0, crop_w = 0, crop_h = 1`,
so positivity of the inputs does not guarantee `crop_w ≥ 1` and `crop_h ≥ 1`. -/
theorem centerCrop_can_be_empty :
    calculateCenterCrop 100 1 1 100 = some ⟨50, 0, 0, 1⟩ ∧
    ¬ (∀ src_w src_h dst_w dst_h : ℤ, 0 < src_w → 0 < src_h → 0 < dst_w → 0 < dst_h →
        ∀ r, calculateCenterCrop src_w src_h dst_w dst_h = some r →
          1 ≤ r.crop_w ∧ 1 ≤ r.crop_h) := by
  have hev : calculateCenterCrop 100 1 1 100 = some ⟨50, 0, 0, 1⟩ := by decide
  refine ⟨hev, fun hall => ?_⟩
  have := (hall 100 1 1 100 (by decide) (by decide) (by decide) (by decide) _ hev).1
  exact absurd this (by decide)

end CameraHook
